import Mathlib

/-!
Verification of the simplex helper program (src/simplex_helper.py).

The program stores a tableau as a list of rows, each row a list of numbers
that are dynamically either Python ints or `fractions.Fraction` objects
(always reduced, positive denominator).  We embed that numeric domain as
`PyNum` below: `PyNum.int n` is a Python int, `PyNum.frac a b` is `Fraction(a, b)`
already reduced with `b > 0`.  Exact rational values of entries live in `ℚ`
via `PyNum.toRat`; the operational definitions themselves use only integer
arithmetic (with fuel-based gcd) so that concrete runs reduce by `decide`.
-/

/-- Euclidean gcd on naturals with explicit fuel; `gcdFuel (m+1) m n`
computes `Nat.gcd m n` (fuel larger than the first argument suffices). -/
def gcdFuel : ℕ → ℕ → ℕ → ℕ
  | 0, _, n => n
  | _ + 1, 0, n => n
  | f + 1, m + 1, n => gcdFuel f (n % (m + 1)) (m + 1)

/-- gcd of two naturals, as the program's arithmetic uses it. -/
def natGcd (m n : ℕ) : ℕ := gcdFuel (m + 1) m n

theorem gcdFuel_eq_gcd : ∀ f m n, m < f → gcdFuel f m n = Nat.gcd m n := by
  intro f
  induction f with
  | zero => intro m n h; omega
  | succ f ih =>
    intro m n h
    match m with
    | 0 => simp [gcdFuel]
    | m + 1 =>
      have h2 : n % (m + 1) < f := lt_of_lt_of_le (Nat.mod_lt _ (Nat.succ_pos m)) (by omega)
      rw [gcdFuel, ih _ _ h2, Nat.gcd_rec (m + 1) n]

theorem natGcd_eq (m n : ℕ) : natGcd m n = Nat.gcd m n :=
  gcdFuel_eq_gcd _ _ _ (Nat.lt_succ_self m)

/-- `Fraction(a, b)` for `b ≠ 0`: reduce by the gcd and normalize the sign
of the denominator, exactly as Python's `fractions.Fraction` does. -/
def mkFrac (a b : ℤ) : ℤ × ℤ :=
  let s : ℤ := if b < 0 then -1 else 1
  let g : ℤ := (natGcd a.natAbs b.natAbs : ℕ)
  (s * a / g, s * b / g)

/-- The numeric values of the program: a Python int, or a reduced
`Fraction` with numerator and (positive) denominator. -/
inductive PyNum where
  | int : ℤ → PyNum
  | frac : ℤ → ℤ → PyNum
deriving DecidableEq

/-- Exact rational value of a number. -/
def PyNum.toRat : PyNum → ℚ
  | .int n => (n : ℚ)
  | .frac a b => (a : ℚ) / (b : ℚ)

/-- Numerator/denominator view used for exact value comparisons. -/
def PyNum.toPair : PyNum → ℤ × ℤ
  | .int n => (n, 1)
  | .frac a b => (a, b)

/-- `isinstance(x, int)` in the source. -/
def PyNum.isInt : PyNum → Bool
  | .int _ => true
  | .frac _ _ => false

/-- Whether the value is zero (`x == 0` in Python). -/
def PyNum.isZero : PyNum → Bool
  | .int n => n = 0
  | .frac a _ => a = 0

/-- Python `==` between ints and Fractions compares exact values. -/
def PyNum.eqB (x y : PyNum) : Bool := x.toPair.1 * y.toPair.2 = y.toPair.1 * x.toPair.2

/-- Python `<` between ints and Fractions compares exact values
(denominators are positive). -/
def PyNum.ltB (x y : PyNum) : Bool := x.toPair.1 * y.toPair.2 < y.toPair.1 * x.toPair.2

/-- Python multiplication: int*int stays int, anything else is a Fraction. -/
def PyNum.mul (x y : PyNum) : PyNum :=
  match x, y with
  | .int a, .int b => .int (a * b)
  | _, _ =>
    let p := mkFrac (x.toPair.1 * y.toPair.1) (x.toPair.2 * y.toPair.2)
    .frac p.1 p.2

/-- Python subtraction: int-int stays int, anything else is a Fraction. -/
def PyNum.sub (x y : PyNum) : PyNum :=
  match x, y with
  | .int a, .int b => .int (a - b)
  | _, _ =>
    let p := mkFrac (x.toPair.1 * y.toPair.2 - y.toPair.1 * x.toPair.2)
      (x.toPair.2 * y.toPair.2)
    .frac p.1 p.2

/-- Lines 57-60 of the source: a Fraction whose denominator is 1 is
converted back to an int. -/
def PyNum.normalize : PyNum → PyNum
  | .frac a b => if b = 1 then .int a else .frac a b
  | x => x

/-- `matrix[r][j]` (claims only concern in-range indices; out-of-range
reads default to 0 instead of modelling Python's IndexError). -/
def entryAt (row : List PyNum) (j : ℕ) : PyNum := (row.get? j).getD (.int 0)

/-- Row `r` of the tableau. -/
def rowAt (M : List (List PyNum)) (r : ℕ) : List PyNum := (M.get? r).getD []

/-- Line 43 of the source: divide one entry by an int pivot `p`; keeps an
int when the division is exact (`x % pivot == 0`), otherwise builds
`Fraction(x, pivot)`. -/
def divByIntPivot (p : ℤ) (x : PyNum) : PyNum :=
  match x with
  | .int m => if m % p = 0 then .int (m / p) else
      (let q := mkFrac m p; .frac q.1 q.2)
  | .frac a b => if a % (b * p) = 0 then .int (a / (b * p)) else
      (let q := mkFrac a (b * p); .frac q.1 q.2)

/-- Line 45 of the source: divide one entry by a Fraction pivot `c/d`
(`x / pivot`, always a Fraction). -/
def divByFracPivot (c d : ℤ) (x : PyNum) : PyNum :=
  let q := mkFrac (x.toPair.1 * d) (x.toPair.2 * c)
  .frac q.1 q.2

/-- Lines 42-45 of the source: normalize the pivot row, branching on
whether the pivot value is an int. -/
def pivotRowDiv (p : PyNum) (row : List PyNum) : List PyNum :=
  match p with
  | .int n => row.map (divByIntPivot n)
  | .frac c d => row.map (divByFracPivot c d)

/-- Lines 51-54 of the source: subtract the scaled (already normalized)
pivot row `npr` from row `r`.  The factor is `matrix[r][col] //
matrix[row][col]` kept as an int when both are ints and the division is
exact, `Fraction(matrix[r][col], matrix[row][col])` when both are ints
otherwise, and the raw entry `matrix[r][col]` in the mixed case. -/
def rowUpdate (npr : List PyNum) (col : ℕ) (r : List PyNum) : List PyNum :=
  match entryAt r col, entryAt npr col with
  | .int m, .int k =>
    if m % k = 0 then
      List.zipWith (fun x y => x.sub (y.mul (.int (m / k)))) r npr
    else
      (let q := mkFrac m k
       List.zipWith (fun x y => x.sub (y.mul (.frac q.1 q.2))) r npr)
  | c, _ => List.zipWith (fun x y => x.sub (y.mul c)) r npr

/-- The pivot element `matrix[row][col]`. -/
def pivotVal (M : List (List PyNum)) (row col : ℕ) : PyNum := entryAt (rowAt M row) col

/-- Lines 24-62 of the source, the pivot engine: `none` models the
ZeroDivisionError raised when the pivot entry is zero (the matrix is left
untouched in that case, since the failing list comprehension is evaluated
before any assignment); otherwise the pivot row is divided by the pivot,
every other row is reduced against it, and finally every Fraction with
denominator 1 is converted back to an int. -/
def pivot (M : List (List PyNum)) (row col : ℕ) : Option (List (List PyNum)) :=
  let p := pivotVal M row col
  if p.isZero then none
  else
    let npr := pivotRowDiv p (rowAt M row)
    some ((List.range M.length).map fun r =>
      (if r = row then npr else rowUpdate npr col (rowAt M r)).map PyNum.normalize)

/-- Floor of log2 on positive naturals, by fuel (`log2fuel n n` is exact
for every `n ≥ 1`). -/
def log2fuel : ℕ → ℕ → ℕ
  | 0, _ => 0
  | f + 1, n => if 2 ≤ n then log2fuel f (n / 2) + 1 else 0

/-- `⌊log2 n⌋` for `n ≥ 1`. -/
def nlog2 (n : ℕ) : ℕ := log2fuel n n

/-- The exact value of the IEEE-754 double produced by Python's `a / b`
on ints (round to nearest, ties to even, 53-bit significand), returned as
a numerator/denominator pair with positive denominator.  Exponent
overflow and subnormal underflow are not modelled: the result is the
correctly rounded value for quotients in the double's normal range, which
covers every concrete input appearing below. -/
def floatAssemble (s : ℤ) (m : ℕ) (e : ℤ) : ℤ × ℤ :=
  if 0 ≤ e then (s * (m * 2 ^ e.toNat : ℕ), 1) else (s * m, (2 ^ (-e).toNat : ℕ))

def floatPair (a b : ℤ) : ℤ × ℤ :=
  if a = 0 then (0, 1)
  else
    let na := a.natAbs
    let nb := b.natAbs
    let z : ℤ := (nlog2 na : ℤ) - (nlog2 nb : ℤ)
    let ge : Bool := if 0 ≤ z then decide (nb * 2 ^ z.toNat ≤ na)
      else decide (nb ≤ na * 2 ^ (-z).toNat)
    let e : ℤ := (if ge then z else z - 1) - 52
    let A : ℕ := na * (if 0 ≤ e then 1 else 2 ^ (-e).toNat)
    let B : ℕ := nb * (if 0 ≤ e then 2 ^ e.toNat else 1)
    let mq : ℕ := A / B
    let r : ℕ := A % B
    let m : ℕ := if 2 * r < B then mq
      else if B < 2 * r then mq + 1
      else if mq % 2 = 0 then mq else mq + 1
    let s : ℤ := if (0 < a) = (0 < b) then 1 else -1
    floatAssemble s m e

/-- Exact-value division of two pairs, with the sign moved to the
numerator so the denominator stays positive. -/
def pairDiv (x y : ℤ × ℤ) : ℤ × ℤ :=
  let n := x.1 * y.2
  let d := x.2 * y.1
  if d < 0 then (-n, -d) else (n, d)

/-- The key of one candidate row in the minimum-ratio test, line 81 of
the source: `matrix[x][-1] / matrix[x][col]` when the column entry is
nonzero, `float('inf')` (modelled as `none`) otherwise.  Python's `/` on
two ints produces a float, hence the `floatPair` rounding in that case;
any operand that is a Fraction keeps the quotient exact. -/
def ratioKey (M : List (List PyNum)) (col r : ℕ) : Option (ℤ × ℤ) :=
  let row := rowAt M r
  let e := entryAt row col
  if e.isZero then none
  else
    let b := (row.getLast?).getD (.int 0)
    match b, e with
    | .int m, .int k => some (floatPair m k)
    | _, _ => some (pairDiv b.toPair e.toPair)

/-- Comparison of ratio keys as Python's `min` sees them: `none` is
`float('inf')`, finite keys compare by exact value (Python compares a
float with a Fraction exactly). -/
def keyLt : Option (ℤ × ℤ) → Option (ℤ × ℤ) → Bool
  | some x, some y => x.1 * y.2 < y.1 * x.2
  | some _, none => true
  | none, _ => false

/-- `min(range(n), key=keys)`: left fold keeping the first index whose
key is minimal (a later index replaces the current best only when its key
is strictly smaller). -/
def pyMinIdx (keys : ℕ → Option (ℤ × ℤ)) (n : ℕ) : ℕ :=
  (List.range n).foldl (fun best r => if keyLt (keys r) (keys best) then r else best) 0

/-- The objective row without its right-hand side, `matrix[-1][:-1]`. -/
def objNums (M : List (List PyNum)) : List PyNum := ((M.getLast?).getD []).dropLast

/-- Python `min` of a nonempty list of numbers (first minimal element). -/
def listMinNum : List PyNum → PyNum
  | [] => .int 0
  | x :: xs => xs.foldl (fun a b => if PyNum.ltB b a then b else a) x

/-- `list.index(v)`: index of the first element equal (by value) to `v`. -/
def firstEqIdx : List PyNum → PyNum → ℕ
  | [], _ => 0
  | x :: xs, v => if PyNum.eqB x v then 0 else firstEqIdx xs v + 1

/-- Line 76 of the source: the candidate pivot column, first index of the
minimum of the objective row (excluding the right-hand side). -/
def selCol (M : List (List PyNum)) : ℕ := firstEqIdx (objNums M) (listMinNum (objNums M))

/-- Line 81 of the source: the suggested pivot row, argmin of the ratio
keys over candidate rows `0 .. len(matrix)-2`. -/
def selRow (M : List (List PyNum)) (col : ℕ) : ℕ := pyMinIdx (ratioKey M col) (M.length - 1)

/-- `matrix[r][-1]`, the right-hand side of row `r`. -/
def rhsNum (M : List (List PyNum)) (r : ℕ) : PyNum := ((rowAt M r).getLast?).getD (.int 0)

/-- Outcome of one pass through lines 74-83 of the source. -/
inductive SelectResult where
  | optimal : SelectResult
  | unbounded : SelectResult
  | suggest : ℕ → ℕ → SelectResult
deriving DecidableEq

/-- One selection pass of the iteration controller, lines 74-83: find the
most negative objective entry; if it is nonnegative the tableau is
optimal; otherwise run the minimum-ratio test and report unbounded when
the selected row's right-hand side is zero; otherwise expose the computed
(row, col) suggestion and wait for the externally typed pivot choice. -/
def selectStep (M : List (List PyNum)) : SelectResult :=
  let l := objNums M
  let mv := listMinNum l
  if 0 ≤ mv.toPair.1 then .optimal
  else
    let col := firstEqIdx l mv
    let row := selRow M col
    if (rhsNum M row).isZero then .unbounded
    else .suggest row col

/-- Result of a whole interactive run: the loop either returns the
optimal tableau, raises the unbounded error, or exhausts the supplied
stream of user pivot choices while still asking for more. -/
inductive LoopResult where
  | optimal : List (List PyNum) → LoopResult
  | unbounded : LoopResult
  | outOfInput : List (List PyNum) → LoopResult
deriving DecidableEq

/-- Lines 74-98 of the source, the iteration controller: each round runs
the selection pass; on `suggest` it consumes the next user-typed
`(col, row)` pair from the stream `cs` (the code always prompts,
discarding the suggestion) and invokes the pivot engine, catching the
ZeroDivisionError and continuing with the tableau unchanged when the
chosen pivot entry is zero. -/
def simplexLoop : List (ℕ × ℕ) → List (List PyNum) → LoopResult
  | [], M =>
    match selectStep M with
    | .optimal => .optimal M
    | .unbounded => .unbounded
    | .suggest _ _ => .outOfInput M
  | (c, r) :: rest, M =>
    match selectStep M with
    | .optimal => .optimal M
    | .unbounded => .unbounded
    | .suggest _ _ =>
      match pivot M r c with
      | some M2 => simplexLoop rest M2
      | none => simplexLoop rest M

/-- First index whose entry equals (by value) the int 1, or `none`:
`[x[i] for x in result].index(1)` with its ValueError, lines 163-167. -/
def firstOneIdx : List PyNum → Option ℕ
  | [] => none
  | x :: xs =>
    if PyNum.eqB x (.int 1) then some 0
    else (firstOneIdx xs).map (· + 1)

/-- Lines 162-167 of the source, the reported value of variable `x i`:
the right-hand side of the first row whose entry in column `i` equals 1,
and 0 when no entry of the column equals 1 (the ValueError branch). -/
def solutionValue (R : List (List PyNum)) (i : ℕ) : PyNum :=
  match firstOneIdx (R.map (fun row => entryAt row i)) with
  | some r => rhsNum R r
  | none => .int 0

/-! ## Exact values: the correspondence between `PyNum` data and `ℚ` -/

/-- Well-formedness of a number: a `Fraction` has a positive denominator
(Python's `Fraction` guarantees this; it is also kept in lowest terms,
but only the sign of the denominator is needed for the value lemmas). -/
def PyNum.WF : PyNum → Prop
  | .int _ => True
  | .frac _ b => 0 < b

/-- Every entry of every row is well-formed. -/
def MatWF (M : List (List PyNum)) : Prop := ∀ row ∈ M, ∀ x ∈ row, x.WF

/-- The exact rational tableau underlying a `PyNum` tableau. -/
def toQ (M : List (List PyNum)) : List (List ℚ) := M.map (List.map PyNum.toRat)

theorem PyNum.toRat_eq_pair (x : PyNum) :
    x.toRat = (x.toPair.1 : ℚ) / (x.toPair.2 : ℚ) := by
  cases x <;> simp [PyNum.toRat, PyNum.toPair]

theorem PyNum.WF.pair_pos {x : PyNum} (hx : x.WF) : 0 < x.toPair.2 := by
  cases x with
  | int n => simp [PyNum.toPair]
  | frac a b => exact hx

theorem mkFrac_snd_pos (a b : ℤ) (hb : b ≠ 0) : 0 < (mkFrac a b).2 := by
  simp only [mkFrac, natGcd_eq]
  set g : ℤ := (Nat.gcd a.natAbs b.natAbs : ℤ) with hgdef
  have hg0 : 0 < g := by
    have := Nat.gcd_pos_of_pos_right (m := a.natAbs)
      (Nat.pos_of_ne_zero (Int.natAbs_ne_zero.mpr hb))
    rw [hgdef]
    exact_mod_cast this
  have hgb : g ∣ b := by
    have := Int.gcd_dvd_right (a := a) (b := b)
    simpa [Int.gcd, hgdef] using this
  obtain ⟨k, hk⟩ := hgb
  by_cases hneg : b < 0
  · simp only [if_pos hneg]
    have h1 : -1 * b = g * (-k) := by rw [hk]; ring
    rw [h1, Int.mul_ediv_cancel_left _ (ne_of_gt hg0)]
    nlinarith
  · simp only [if_neg hneg]
    have hbpos : 0 < b := lt_of_le_of_ne (not_lt.mp hneg) (Ne.symm hb)
    have h1 : 1 * b = g * k := by rw [hk]; ring
    rw [h1, Int.mul_ediv_cancel_left _ (ne_of_gt hg0)]
    nlinarith

theorem mkFrac_toRat (a b : ℤ) (hb : b ≠ 0) :
    ((mkFrac a b).1 : ℚ) / ((mkFrac a b).2 : ℚ) = (a : ℚ) / (b : ℚ) := by
  simp only [mkFrac, natGcd_eq]
  set g : ℤ := (Nat.gcd a.natAbs b.natAbs : ℤ) with hgdef
  have hg0 : 0 < g := by
    have := Nat.gcd_pos_of_pos_right (m := a.natAbs)
      (Nat.pos_of_ne_zero (Int.natAbs_ne_zero.mpr hb))
    rw [hgdef]
    exact_mod_cast this
  have hga : g ∣ a := by
    have := Int.gcd_dvd_left (a := a) (b := b)
    simpa [Int.gcd, hgdef] using this
  have hgb : g ∣ b := by
    have := Int.gcd_dvd_right (a := a) (b := b)
    simpa [Int.gcd, hgdef] using this
  have hgq : (g : ℚ) ≠ 0 := by
    have : g ≠ 0 := ne_of_gt hg0
    exact_mod_cast this
  by_cases hneg : b < 0
  · simp only [if_pos hneg]
    rw [Int.cast_div (hga.mul_left _) hgq, Int.cast_div (hgb.mul_left _) hgq]
    push_cast
    rw [div_div_div_comm, div_self hgq, div_one, neg_one_mul, neg_one_mul, neg_div_neg_eq]
  · simp only [if_neg hneg]
    rw [Int.cast_div (hga.mul_left _) hgq, Int.cast_div (hgb.mul_left _) hgq]
    push_cast
    rw [div_div_div_comm, div_self hgq, div_one, one_mul, one_mul]

theorem PyNum.toRat_mul (x y : PyNum) (hx : x.WF) (hy : y.WF) :
    (x.mul y).toRat = x.toRat * y.toRat := by
  have hx2 : (x.toPair.2 : ℚ) ≠ 0 := by exact_mod_cast ne_of_gt hx.pair_pos
  have hy2 : (y.toPair.2 : ℚ) ≠ 0 := by exact_mod_cast ne_of_gt hy.pair_pos
  have hden : x.toPair.2 * y.toPair.2 ≠ 0 :=
    mul_ne_zero (ne_of_gt hx.pair_pos) (ne_of_gt hy.pair_pos)
  have key : ((mkFrac (x.toPair.1 * y.toPair.1) (x.toPair.2 * y.toPair.2)).1 : ℚ) /
      ((mkFrac (x.toPair.1 * y.toPair.1) (x.toPair.2 * y.toPair.2)).2 : ℚ)
      = x.toRat * y.toRat := by
    rw [mkFrac_toRat _ _ hden, PyNum.toRat_eq_pair x, PyNum.toRat_eq_pair y]
    push_cast
    rw [div_mul_div_comm]
  cases x <;> cases y <;>
    simp_all [PyNum.mul, PyNum.toRat, PyNum.toPair]

theorem PyNum.toRat_sub (x y : PyNum) (hx : x.WF) (hy : y.WF) :
    (x.sub y).toRat = x.toRat - y.toRat := by
  have hx2 : (x.toPair.2 : ℚ) ≠ 0 := by exact_mod_cast ne_of_gt hx.pair_pos
  have hy2 : (y.toPair.2 : ℚ) ≠ 0 := by exact_mod_cast ne_of_gt hy.pair_pos
  have hden : x.toPair.2 * y.toPair.2 ≠ 0 :=
    mul_ne_zero (ne_of_gt hx.pair_pos) (ne_of_gt hy.pair_pos)
  have key : ((mkFrac (x.toPair.1 * y.toPair.2 - y.toPair.1 * x.toPair.2)
      (x.toPair.2 * y.toPair.2)).1 : ℚ) /
      ((mkFrac (x.toPair.1 * y.toPair.2 - y.toPair.1 * x.toPair.2)
      (x.toPair.2 * y.toPair.2)).2 : ℚ) = x.toRat - y.toRat := by
    rw [mkFrac_toRat _ _ hden, PyNum.toRat_eq_pair x, PyNum.toRat_eq_pair y]
    push_cast
    field_simp
    ring
  cases x <;> cases y <;>
    simp_all [PyNum.sub, PyNum.toRat, PyNum.toPair]

theorem PyNum.WF_mul {x y : PyNum} (hx : x.WF) (hy : y.WF) : (x.mul y).WF := by
  have hden : x.toPair.2 * y.toPair.2 ≠ 0 :=
    mul_ne_zero (ne_of_gt hx.pair_pos) (ne_of_gt hy.pair_pos)
  cases x <;> cases y <;> simp only [PyNum.mul, PyNum.WF] <;>
    first
      | trivial
      | exact mkFrac_snd_pos _ _ hden

theorem PyNum.WF_sub {x y : PyNum} (hx : x.WF) (hy : y.WF) : (x.sub y).WF := by
  have hden : x.toPair.2 * y.toPair.2 ≠ 0 :=
    mul_ne_zero (ne_of_gt hx.pair_pos) (ne_of_gt hy.pair_pos)
  cases x <;> cases y <;> simp only [PyNum.sub, PyNum.WF] <;>
    first
      | trivial
      | exact mkFrac_snd_pos _ _ hden

theorem PyNum.toRat_normalize (x : PyNum) : x.normalize.toRat = x.toRat := by
  cases x with
  | int n => rfl
  | frac a b =>
    by_cases hb : b = 1 <;> simp [PyNum.normalize, PyNum.toRat, hb]

theorem PyNum.WF_normalize {x : PyNum} (hx : x.WF) : x.normalize.WF := by
  cases x with
  | int n => trivial
  | frac a b =>
    by_cases hb : b = 1 <;> simp [PyNum.normalize, PyNum.WF, hb] <;> exact hx

theorem PyNum.isZero_iff {x : PyNum} (hx : x.WF) : x.isZero = true ↔ x.toRat = 0 := by
  cases x with
  | int n => simp [PyNum.isZero, PyNum.toRat]
  | frac a b =>
    have hb : (b : ℚ) ≠ 0 := by exact_mod_cast ne_of_gt hx
    simp [PyNum.isZero, PyNum.toRat, div_eq_zero_iff, hb]

theorem PyNum.ltB_iff {x y : PyNum} (hx : x.WF) (hy : y.WF) :
    x.ltB y = true ↔ x.toRat < y.toRat := by
  have hx2 : (0 : ℚ) < (x.toPair.2 : ℚ) := by exact_mod_cast hx.pair_pos
  have hy2 : (0 : ℚ) < (y.toPair.2 : ℚ) := by exact_mod_cast hy.pair_pos
  rw [PyNum.toRat_eq_pair x, PyNum.toRat_eq_pair y, div_lt_div_iff hx2 hy2, PyNum.ltB]
  constructor
  · intro h; exact_mod_cast of_decide_eq_true h
  · intro h; exact decide_eq_true (by exact_mod_cast h)

theorem PyNum.eqB_iff {x y : PyNum} (hx : x.WF) (hy : y.WF) :
    x.eqB y = true ↔ x.toRat = y.toRat := by
  have hx2 : (0 : ℚ) < (x.toPair.2 : ℚ) := by exact_mod_cast hx.pair_pos
  have hy2 : (0 : ℚ) < (y.toPair.2 : ℚ) := by exact_mod_cast hy.pair_pos
  rw [PyNum.toRat_eq_pair x, PyNum.toRat_eq_pair y,
    div_eq_div_iff (ne_of_gt hx2) (ne_of_gt hy2), PyNum.eqB]
  constructor
  · intro h; exact_mod_cast of_decide_eq_true h
  · intro h; exact decide_eq_true (by exact_mod_cast h)

theorem PyNum.toRat_ne_zero {x : PyNum} (hx : x.WF) (hz : x.isZero = false) :
    x.toRat ≠ 0 := by
  intro h
  rw [← PyNum.isZero_iff hx] at h
  rw [h] at hz
  exact Bool.true_eq_false.mp hz

theorem entryAt_WF {row : List PyNum} (h : ∀ x ∈ row, x.WF) (j : ℕ) :
    (entryAt row j).WF := by
  unfold entryAt
  cases hj : row.get? j with
  | none => trivial
  | some x => exact h x (List.get?_mem hj)

theorem divByIntPivot_toRat (p : ℤ) (hp : p ≠ 0) (x : PyNum) (hx : x.WF) :
    (divByIntPivot p x).toRat = x.toRat / (p : ℚ) := by
  have hpq : (p : ℚ) ≠ 0 := by exact_mod_cast hp
  cases x with
  | int m =>
    by_cases hdvd : m % p = 0
    · have : p ∣ m := Int.dvd_of_emod_eq_zero hdvd
      simp only [divByIntPivot, if_pos hdvd, PyNum.toRat]
      exact Int.cast_div this hpq
    · simp only [divByIntPivot, if_neg hdvd, PyNum.toRat]
      exact mkFrac_toRat m p hp
  | frac a b =>
    have hb : b ≠ 0 := ne_of_gt hx
    have hbq : (b : ℚ) ≠ 0 := by exact_mod_cast hb
    have hbp : b * p ≠ 0 := mul_ne_zero hb hp
    by_cases hdvd : a % (b * p) = 0
    · have hd2 : b * p ∣ a := Int.dvd_of_emod_eq_zero hdvd
      simp only [divByIntPivot, if_pos hdvd, PyNum.toRat]
      rw [Int.cast_div hd2 (by exact_mod_cast hbp)]
      push_cast
      rw [div_div]
    · simp only [divByIntPivot, if_neg hdvd, PyNum.toRat]
      rw [mkFrac_toRat a (b * p) hbp]
      push_cast
      rw [div_div]

theorem divByIntPivot_WF (p : ℤ) (hp : p ≠ 0) {x : PyNum} (hx : x.WF) :
    (divByIntPivot p x).WF := by
  cases x with
  | int m =>
    by_cases hdvd : m % p = 0
    · simp only [divByIntPivot]
      rw [if_pos hdvd]
      trivial
    · simp only [divByIntPivot, if_neg hdvd]
      exact mkFrac_snd_pos m p hp
  | frac a b =>
    have hbp : b * p ≠ 0 := mul_ne_zero (ne_of_gt hx) hp
    by_cases hdvd : a % (b * p) = 0
    · simp only [divByIntPivot]
      rw [if_pos hdvd]
      trivial
    · simp only [divByIntPivot, if_neg hdvd]
      exact mkFrac_snd_pos a (b * p) hbp

theorem divByFracPivot_toRat (c d : ℤ) (hc : c ≠ 0) (hd : 0 < d) (x : PyNum) (hx : x.WF) :
    (divByFracPivot c d x).toRat = x.toRat / ((c : ℚ) / (d : ℚ)) := by
  have hcq : (c : ℚ) ≠ 0 := by exact_mod_cast hc
  have hdq : (d : ℚ) ≠ 0 := by exact_mod_cast ne_of_gt hd
  have hx2 : (x.toPair.2 : ℚ) ≠ 0 := by exact_mod_cast ne_of_gt hx.pair_pos
  have hden : x.toPair.2 * c ≠ 0 := mul_ne_zero (ne_of_gt hx.pair_pos) hc
  rw [PyNum.toRat_eq_pair x]
  simp only [divByFracPivot, PyNum.toRat]
  rw [mkFrac_toRat _ _ hden]
  push_cast
  field_simp

theorem divByFracPivot_WF (c d : ℤ) (hc : c ≠ 0) {x : PyNum} (hx : x.WF) :
    (divByFracPivot c d x).WF := by
  have hden : x.toPair.2 * c ≠ 0 := mul_ne_zero (ne_of_gt hx.pair_pos) hc
  simp only [divByFracPivot]
  exact mkFrac_snd_pos _ _ hden

theorem pivotRowDiv_toRat (p : PyNum) (hp : p.WF) (hpz : p.isZero = false)
    (row : List PyNum) (hrow : ∀ x ∈ row, x.WF) :
    (pivotRowDiv p row).map PyNum.toRat = row.map (fun x => x.toRat / p.toRat) := by
  cases p with
  | int n =>
    have hn : n ≠ 0 := by simpa [PyNum.isZero] using hpz
    simp only [pivotRowDiv, List.map_map]
    exact List.map_congr_left fun x hx =>
      divByIntPivot_toRat n hn x (hrow x hx)
  | frac c d =>
    have hc : c ≠ 0 := by simpa [PyNum.isZero] using hpz
    simp only [pivotRowDiv, List.map_map]
    exact List.map_congr_left fun x hx =>
      divByFracPivot_toRat c d hc hp x (hrow x hx)

theorem pivotRowDiv_WF (p : PyNum) (hp : p.WF) (hpz : p.isZero = false)
    (row : List PyNum) (hrow : ∀ x ∈ row, x.WF) :
    ∀ y ∈ pivotRowDiv p row, y.WF := by
  cases p with
  | int n =>
    have hn : n ≠ 0 := by simpa [PyNum.isZero] using hpz
    intro y hy
    simp only [pivotRowDiv, List.mem_map] at hy
    obtain ⟨x, hx, rfl⟩ := hy
    exact divByIntPivot_WF n hn (hrow x hx)
  | frac c d =>
    have hc : c ≠ 0 := by simpa [PyNum.isZero] using hpz
    intro y hy
    simp only [pivotRowDiv, List.mem_map] at hy
    obtain ⟨x, hx, rfl⟩ := hy
    exact divByFracPivot_WF c d hc (hrow x hx)

theorem pivotRowDiv_length (p : PyNum) (row : List PyNum) :
    (pivotRowDiv p row).length = row.length := by
  cases p <;> simp [pivotRowDiv]

theorem entryAt_eq_getElem {l : List PyNum} {j : ℕ} (h : j < l.length) :
    entryAt l j = l[j] := by
  simp [entryAt, List.get?_eq_getElem?, List.getElem?_eq_getElem h]

theorem rowAt_eq_getElem {M : List (List PyNum)} {r : ℕ} (h : r < M.length) :
    rowAt M r = M[r] := by
  simp [rowAt, List.get?_eq_getElem?, List.getElem?_eq_getElem h]

theorem rowAt_WF {M : List (List PyNum)} (hWF : MatWF M) (r : ℕ) :
    ∀ x ∈ rowAt M r, x.WF := by
  by_cases h : r < M.length
  · rw [rowAt_eq_getElem h]
    exact hWF _ (List.getElem_mem h)
  · unfold rowAt
    rw [List.get?_eq_getElem?, List.getElem?_eq_none (by omega)]
    simp

theorem zipWith_sub_mul_toRat (c : PyNum) (hc : c.WF) :
    ∀ (r npr : List PyNum), (∀ x ∈ r, x.WF) → (∀ y ∈ npr, y.WF) →
      (List.zipWith (fun x y => x.sub (y.mul c)) r npr).map PyNum.toRat
        = List.zipWith (fun xq yq => xq - yq * c.toRat)
            (r.map PyNum.toRat) (npr.map PyNum.toRat)
  | [], _, _, _ => by simp
  | _ :: _, [], _, _ => by simp
  | x :: r, y :: npr, hr, hnpr => by
    simp only [List.zipWith_cons_cons, List.map_cons]
    rw [PyNum.toRat_sub _ _ (hr x (by simp)) (PyNum.WF_mul (hnpr y (by simp)) hc),
      PyNum.toRat_mul _ _ (hnpr y (by simp)) hc,
      zipWith_sub_mul_toRat c hc r npr (fun a ha => hr a (by simp [ha]))
        (fun a ha => hnpr a (by simp [ha]))]

theorem zipWith_sub_mul_WF (c : PyNum) (hc : c.WF) :
    ∀ (r npr : List PyNum), (∀ x ∈ r, x.WF) → (∀ y ∈ npr, y.WF) →
      ∀ z ∈ List.zipWith (fun x y => x.sub (y.mul c)) r npr, z.WF
  | [], _, _, _ => by simp
  | _ :: _, [], _, _ => by simp
  | x :: r, y :: npr, hr, hnpr => by
    intro z hz
    simp only [List.zipWith_cons_cons, List.mem_cons] at hz
    rcases hz with rfl | hz
    · exact PyNum.WF_sub (hr x (by simp)) (PyNum.WF_mul (hnpr y (by simp)) hc)
    · exact zipWith_sub_mul_WF c hc r npr (fun a ha => hr a (by simp [ha]))
        (fun a ha => hnpr a (by simp [ha])) z hz

theorem rowUpdate_toRat (npr : List PyNum) (col : ℕ) (r : List PyNum)
    (hr : ∀ x ∈ r, x.WF) (hnpr : ∀ y ∈ npr, y.WF)
    (hcolval : (entryAt npr col).toRat = 1) :
    (rowUpdate npr col r).map PyNum.toRat
      = List.zipWith (fun xq yq => xq - yq * (entryAt r col).toRat)
          (r.map PyNum.toRat) (npr.map PyNum.toRat) := by
  cases h1 : entryAt r col with
  | int m =>
    cases h2 : entryAt npr col with
    | int k =>
      have hk : k = 1 := by
        rw [h2] at hcolval
        simp only [PyNum.toRat] at hcolval
        exact_mod_cast hcolval
      subst hk
      simp only [rowUpdate, h1, h2, Int.emod_one, if_true, Int.ediv_one]
      rw [zipWith_sub_mul_toRat (.int m) trivial r npr hr hnpr]
    | frac c d =>
      simp only [rowUpdate, h1, h2]
      rw [zipWith_sub_mul_toRat (.int m) trivial r npr hr hnpr]
  | frac a b =>
    have hWFc : (PyNum.frac a b).WF := h1 ▸ entryAt_WF hr col
    simp only [rowUpdate, h1]
    rw [zipWith_sub_mul_toRat (.frac a b) hWFc r npr hr hnpr]

theorem rowUpdate_WF (npr : List PyNum) (col : ℕ) (r : List PyNum)
    (hr : ∀ x ∈ r, x.WF) (hnpr : ∀ y ∈ npr, y.WF)
    (hcolval : (entryAt npr col).toRat = 1) :
    ∀ z ∈ rowUpdate npr col r, z.WF := by
  cases h1 : entryAt r col with
  | int m =>
    cases h2 : entryAt npr col with
    | int k =>
      have hk : k = 1 := by
        rw [h2] at hcolval
        simp only [PyNum.toRat] at hcolval
        exact_mod_cast hcolval
      subst hk
      simp only [rowUpdate, h1, h2, Int.emod_one, if_true, Int.ediv_one]
      exact zipWith_sub_mul_WF (.int m) trivial r npr hr hnpr
    | frac c d =>
      simp only [rowUpdate, h1, h2]
      exact zipWith_sub_mul_WF (.int m) trivial r npr hr hnpr
  | frac a b =>
    have hWFc : (PyNum.frac a b).WF := h1 ▸ entryAt_WF hr col
    simp only [rowUpdate, h1]
    exact zipWith_sub_mul_WF (.frac a b) hWFc r npr hr hnpr

theorem rowUpdate_length (npr : List PyNum) (col : ℕ) (r : List PyNum) :
    (rowUpdate npr col r).length = min r.length npr.length := by
  unfold rowUpdate
  split <;> (try split) <;> simp [List.length_zipWith]

/-! ## The exact Gaussian elimination step stated by the spec -/

/-- Entry of a rational row, 0 outside the row. -/
def qEntry (rowq : List ℚ) (j : ℕ) : ℚ := (rowq.get? j).getD 0

/-- Row of a rational matrix, empty outside the matrix. -/
def qRow (Mq : List (List ℚ)) (r : ℕ) : List ℚ := (Mq.get? r).getD []

/-- The hand-exact Gaussian-elimination step exactly as the spec words
it: with `p` the pivot entry, the pivot row is divided entrywise by `p`,
and every other row `r` becomes, entrywise,
`tableau[r][j] - factor * (tableau[row][j] / p)` where `factor` is the
original `tableau[r][col]`. -/
def gaussPivot (Mq : List (List ℚ)) (row col : ℕ) : List (List ℚ) :=
  let pr := qRow Mq row
  let p := qEntry pr col
  (List.range Mq.length).map fun r =>
    let cur := qRow Mq r
    if r = row then pr.map (fun x => x / p)
    else (List.range cur.length).map fun j =>
      qEntry cur j - qEntry cur col * (qEntry pr j / p)

theorem qEntry_map_toRat {l : List PyNum} {j : ℕ} (h : j < l.length) :
    qEntry (l.map PyNum.toRat) j = (entryAt l j).toRat := by
  rw [entryAt_eq_getElem h]
  simp [qEntry, List.get?_eq_getElem?,
    List.getElem?_eq_getElem (by simpa using h : j < (l.map PyNum.toRat).length)]

theorem qRow_toQ {M : List (List PyNum)} {r : ℕ} (h : r < M.length) :
    qRow (toQ M) r = (rowAt M r).map PyNum.toRat := by
  rw [rowAt_eq_getElem h]
  simp [qRow, toQ, List.get?_eq_getElem?,
    List.getElem?_eq_getElem (by simpa using h : r < (M.map (List.map PyNum.toRat)).length)]

theorem toQ_length (M : List (List PyNum)) : (toQ M).length = M.length := by
  simp [toQ]

theorem map_normalize_toRat (l : List PyNum) :
    (l.map PyNum.normalize).map PyNum.toRat = l.map PyNum.toRat := by
  rw [List.map_map]
  exact List.map_congr_left fun x _ => PyNum.toRat_normalize x

theorem qEntry_map {α : Type} (f : α → ℚ) {l : List α} {j : ℕ} (h : j < l.length) :
    qEntry (l.map f) j = f (l.get ⟨j, h⟩) := by
  simp [qEntry, List.get?_eq_getElem?,
    List.getElem?_eq_getElem (by simpa using h : j < (l.map f).length)]

theorem pivot_eq_gauss (M : List (List PyNum)) (row col n : ℕ)
    (hWF : MatWF M) (hlen : ∀ r ∈ M, r.length = n)
    (hrow : row < M.length) (hcol : col < n)
    (hnz : (pivotVal M row col).isZero = false) :
    ∃ P, pivot M row col = some P ∧ P.length = M.length ∧
      (∀ r ∈ P, r.length = n) ∧ MatWF P ∧ toQ P = gaussPivot (toQ M) row col := by
  set p := pivotVal M row col with hpdef
  have hprMem : rowAt M row ∈ M := by
    rw [rowAt_eq_getElem hrow]; exact List.getElem_mem hrow
  have hprWF : ∀ x ∈ rowAt M row, x.WF := hWF _ hprMem
  have hprlen : (rowAt M row).length = n := hlen _ hprMem
  have hpWF : p.WF := entryAt_WF hprWF col
  have hpq : p.toRat ≠ 0 := PyNum.toRat_ne_zero hpWF hnz
  set npr := pivotRowDiv p (rowAt M row) with hnprdef
  have hnprWF : ∀ y ∈ npr, y.WF := pivotRowDiv_WF p hpWF hnz _ hprWF
  have hnprlen : npr.length = n := by
    rw [hnprdef, pivotRowDiv_length, hprlen]
  have hnprQ : npr.map PyNum.toRat = (rowAt M row).map (fun x => x.toRat / p.toRat) :=
    pivotRowDiv_toRat p hpWF hnz _ hprWF
  have hcol' : col < (rowAt M row).length := by omega
  have hcoln : col < npr.length := by omega
  have hprcol : (rowAt M row).get ⟨col, hcol'⟩ = p := by
    rw [hpdef, pivotVal, entryAt_eq_getElem hcol']
    rfl
  have hcolval : (entryAt npr col).toRat = 1 := by
    rw [entryAt_eq_getElem hcoln]
    have e1 : qEntry (npr.map PyNum.toRat) col = (npr.get ⟨col, hcoln⟩).toRat :=
      qEntry_map _ hcoln
    have e2 : qEntry ((rowAt M row).map (fun x => x.toRat / p.toRat)) col
        = ((rowAt M row).get ⟨col, hcol'⟩).toRat / p.toRat := qEntry_map _ hcol'
    rw [hnprQ] at e1
    rw [e2, hprcol] at e1
    rw [show npr[col] = npr.get ⟨col, hcoln⟩ from rfl, ← e1, div_self hpq]
  have hbody : pivot M row col = some ((List.range M.length).map fun r =>
      (if r = row then npr else rowUpdate npr col (rowAt M r)).map PyNum.normalize) := by
    rw [pivot.eq_def]
    simp only [← hpdef, ← hnprdef, hnz, Bool.false_eq_true, if_false]
  refine ⟨_, hbody, by simp, ?_, ?_, ?_⟩
  · intro rrow hmem
    rw [List.mem_map] at hmem
    obtain ⟨r, hr, rfl⟩ := hmem
    rw [List.length_map]
    by_cases h : r = row
    · rw [if_pos h]; exact hnprlen
    · rw [if_neg h, rowUpdate_length]
      have hrlt : r < M.length := List.mem_range.mp hr
      have hcurlen : (rowAt M r).length = n := by
        refine hlen _ ?_
        rw [rowAt_eq_getElem hrlt]; exact List.getElem_mem hrlt
      omega
  · intro rrow hmem x hx
    rw [List.mem_map] at hmem
    obtain ⟨r, hr, rfl⟩ := hmem
    rw [List.mem_map] at hx
    obtain ⟨y, hy, rfl⟩ := hx
    refine PyNum.WF_normalize ?_
    by_cases h : r = row
    · rw [if_pos h] at hy; exact hnprWF y hy
    · rw [if_neg h] at hy
      exact rowUpdate_WF npr col (rowAt M r) (rowAt_WF hWF r) hnprWF hcolval y hy
  · rw [gaussPivot]
    rw [toQ_length, qRow_toQ hrow]
    have hpQ : qEntry ((rowAt M row).map PyNum.toRat) col = p.toRat := by
      rw [qEntry_map _ hcol', hprcol]
    rw [hpQ]
    rw [toQ, List.map_map]
    apply List.map_congr_left
    intro r hr
    have hrlt : r < M.length := List.mem_range.mp hr
    simp only [Function.comp_apply]
    by_cases h : r = row
    · subst h
      rw [if_pos rfl, if_pos rfl, map_normalize_toRat, hnprQ, List.map_map]
      rfl
    · rw [if_neg h, if_neg h, map_normalize_toRat,
        rowUpdate_toRat npr col (rowAt M r) (rowAt_WF hWF r) hnprWF hcolval,
        qRow_toQ hrlt]
      have hcurlen : (rowAt M r).length = n := by
        refine hlen _ ?_
        rw [rowAt_eq_getElem hrlt]; exact List.getElem_mem hrlt
      apply List.ext_getElem
      · simp only [List.length_zipWith, List.length_map, List.length_range]
        omega
      · intro i h1 h2
        have hi : i < n := by
          simp only [List.length_zipWith, List.length_map] at h1
          omega
        have hiw : i < (rowAt M row).length := by omega
        have hic : i < (rowAt M r).length := by omega
        have hin : i < npr.length := by omega
        have hcolc : col < (rowAt M r).length := by omega
        rw [List.getElem_zipWith]
        simp only [List.getElem_map, List.getElem_range]
        have hq1 : qEntry ((rowAt M r).map PyNum.toRat) i
            = ((rowAt M r)[i]).toRat := qEntry_map _ hic
        have hq2 : qEntry ((rowAt M r).map PyNum.toRat) col
            = ((rowAt M r)[col]).toRat := qEntry_map _ hcolc
        have hq3 : qEntry ((rowAt M row).map PyNum.toRat) i
            = ((rowAt M row)[i]).toRat := qEntry_map _ hiw
        rw [hq1, hq2, hq3]
        have hnpri : (npr[i]).toRat = ((rowAt M row)[i]).toRat / p.toRat := by
          have h3 := congrArg (fun l : List ℚ => qEntry l i) hnprQ
          simp only [qEntry_map PyNum.toRat hin,
            qEntry_map (fun x => PyNum.toRat x / p.toRat) hiw] at h3
          exact h3
        have hcq : (entryAt (rowAt M r) col).toRat
            = ((rowAt M r)[col]).toRat := by
          rw [entryAt_eq_getElem hcolc]
        rw [hnpri]
        linear_combination (-(((rowAt M row)[i]).toRat / p.toRat)) * hcq

theorem PyNum.isZero_eq_false {x : PyNum} (hx : x.WF) (h : x.toRat ≠ 0) :
    x.isZero = false := by
  cases hb : x.isZero with
  | false => rfl
  | true => exact absurd ((PyNum.isZero_iff hx).mp hb) h

theorem qRow_eq_getElem {L : List (List ℚ)} {r : ℕ} (h : r < L.length) :
    qRow L r = L[r] := by
  simp [qRow, List.get?_eq_getElem?, List.getElem?_eq_getElem h]

theorem pivotVal_toRat_qEntry {M : List (List PyNum)} {row col : ℕ}
    (hrow : row < M.length) (hcol : col < (rowAt M row).length) :
    qEntry (qRow (toQ M) row) col = (pivotVal M row col).toRat := by
  rw [qRow_toQ hrow, qEntry_map _ hcol, pivotVal, entryAt_eq_getElem hcol]
  rfl

theorem gaussPivot_col (Mq : List (List ℚ)) (row col : ℕ)
    (hrow : row < Mq.length)
    (hp : qEntry (qRow Mq row) col ≠ 0)
    (hcolr : ∀ r < Mq.length, col < (qRow Mq r).length) :
    qEntry (qRow (gaussPivot Mq row col) row) col = 1 ∧
    ∀ r < Mq.length, r ≠ row → qEntry (qRow (gaussPivot Mq row col) r) col = 0 := by
  have hlen : (gaussPivot Mq row col).length = Mq.length := by
    simp [gaussPivot]
  have hget : ∀ r (hr : r < Mq.length),
      qRow (gaussPivot Mq row col) r
        = (if r = row then (qRow Mq row).map (fun x => x / qEntry (qRow Mq row) col)
           else (List.range (qRow Mq r).length).map fun j =>
             qEntry (qRow Mq r) j
               - qEntry (qRow Mq r) col * (qEntry (qRow Mq row) j / qEntry (qRow Mq row) col)) := by
    intro r hr
    rw [qRow_eq_getElem (by omega : r < (gaussPivot Mq row col).length)]
    simp only [gaussPivot, List.getElem_map, List.getElem_range]
  constructor
  · rw [hget row hrow, if_pos rfl, qEntry_map _ (hcolr row hrow)]
    have : qEntry (qRow Mq row) col = (qRow Mq row).get ⟨col, hcolr row hrow⟩ := by
      rw [qEntry, List.get?_eq_getElem?, List.getElem?_eq_getElem (hcolr row hrow)]
      rfl
    rw [← this, div_self hp]
  · intro r hr hne
    rw [hget r hr, if_neg hne, qEntry_map _ (by simpa using hcolr r hr)]
    have : (List.range (qRow Mq r).length).get ⟨col, by simpa using hcolr r hr⟩ = col := by
      simp [List.get_eq_getElem]
    rw [this, div_self hp, mul_one, sub_self]

/-- C2: for an exact-rational tableau with equal-length rows and a valid
nonzero pivot position, the pivot engine succeeds and every entry of its
result is the exact rational given by the hand-exact Gaussian-elimination
step (`gaussPivot`): the pivot row divided entrywise by the pivot value
`p`, and every other row `r` updated entrywise to
`tableau[r][j] - factor * (tableau[row][j] / p)` with `factor` the
original `tableau[r][col]`.  No floating-point value is ever produced:
the result is again a tableau of `PyNum` (int or `Fraction`) values, and
it is again well-formed, so the same correspondence applies to every
later pivot — repeated pivoting stays exactly on the hand-computed
rationals. -/
theorem pivot_exact_gauss (M : List (List PyNum)) (row col n : ℕ)
    (hWF : MatWF M) (hlen : ∀ r ∈ M, r.length = n)
    (hrow : row + 1 < M.length) (hcol : col + 1 < n)
    (hnz : (pivotVal M row col).toRat ≠ 0) :
    ∃ P, pivot M row col = some P ∧ MatWF P ∧
      toQ P = gaussPivot (toQ M) row col := by
  have hpWF : (pivotVal M row col).WF := entryAt_WF (rowAt_WF hWF row) col
  obtain ⟨P, h1, _, _, h4, h5⟩ := pivot_eq_gauss M row col n hWF hlen (by omega) (by omega)
    (PyNum.isZero_eq_false hpWF hnz)
  exact ⟨P, h1, h4, h5⟩

/-- C1: pivoting a tableau of exact rationals with equal-length rows at a
valid position (row among the candidate rows, col among the variable
columns) with nonzero pivot entry makes column `col` a unit column: the
exact value at (row, col) becomes 1 and the exact value of every other
row's entry in column `col` becomes 0. -/
theorem pivot_unit_column (M : List (List PyNum)) (row col n : ℕ)
    (hWF : MatWF M) (hlen : ∀ r ∈ M, r.length = n)
    (hrow : row + 1 < M.length) (hcol : col + 1 < n)
    (hnz : (pivotVal M row col).toRat ≠ 0) :
    ∃ P, pivot M row col = some P ∧
      qEntry (qRow (toQ P) row) col = 1 ∧
      ∀ r < P.length, r ≠ row → qEntry (qRow (toQ P) r) col = 0 := by
  have hpWF : (pivotVal M row col).WF := entryAt_WF (rowAt_WF hWF row) col
  obtain ⟨P, h1, h2, h3, _, h5⟩ := pivot_eq_gauss M row col n hWF hlen (by omega) (by omega)
    (PyNum.isZero_eq_false hpWF hnz)
  have hrowM : row < M.length := by omega
  have hrowlen : (rowAt M row).length = n := by
    refine hlen _ ?_
    rw [rowAt_eq_getElem hrowM]; exact List.getElem_mem hrowM
  have hpq : qEntry (qRow (toQ M) row) col ≠ 0 := by
    rw [pivotVal_toRat_qEntry hrowM (by omega)]
    exact hnz
  have hcolr : ∀ r < (toQ M).length, col < (qRow (toQ M) r).length := by
    intro r hr
    rw [toQ_length] at hr
    rw [qRow_toQ hr, List.length_map]
    have : (rowAt M r).length = n := by
      refine hlen _ ?_
      rw [rowAt_eq_getElem hr]; exact List.getElem_mem hr
    omega
  obtain ⟨hu1, hu2⟩ := gaussPivot_col (toQ M) row col (by rw [toQ_length]; omega) hpq hcolr
  refine ⟨P, h1, ?_, ?_⟩
  · rw [h5]; exact hu1
  · intro r hrP hne
    rw [h5]
    exact hu2 r (by rw [toQ_length]; omega) hne

/-- C9: the pivot engine preserves the tableau shape: starting from a
tableau whose rows all have length `n`, a valid nonzero pivot succeeds
and returns a tableau with the same number of rows, every row again of
length `n`. -/
theorem pivot_preserves_shape (M : List (List PyNum)) (row col n : ℕ)
    (hWF : MatWF M) (hlen : ∀ r ∈ M, r.length = n)
    (hrow : row + 1 < M.length) (hcol : col + 1 < n)
    (hnz : (pivotVal M row col).toRat ≠ 0) :
    ∃ P, pivot M row col = some P ∧ P.length = M.length ∧
      ∀ r ∈ P, r.length = n := by
  have hpWF : (pivotVal M row col).WF := entryAt_WF (rowAt_WF hWF row) col
  obtain ⟨P, h1, h2, h3, _, _⟩ := pivot_eq_gauss M row col n hWF hlen (by omega) (by omega)
    (PyNum.isZero_eq_false hpWF hnz)
  exact ⟨P, h1, h2, h3⟩

instance (x : PyNum) : Decidable x.WF := by
  cases x with
  | int n => exact isTrue trivial
  | frac a b => exact inferInstanceAs (Decidable (0 < b))

instance (M : List (List PyNum)) : Decidable (MatWF M) :=
  inferInstanceAs (Decidable (∀ row ∈ M, ∀ x ∈ row, x.WF))

/-- Witness for C1: pivoting the concrete tableau [[2,4],[1,3]] at (0,0)
produces a unit first column. -/
theorem pivot_unit_column_witness :
    ∃ P, pivot [[.int 2, .int 4], [.int 1, .int 3]] 0 0 = some P ∧
      qEntry (qRow (toQ P) 0) 0 = 1 ∧
      ∀ r < P.length, r ≠ 0 → qEntry (qRow (toQ P) r) 0 = 0 :=
  pivot_unit_column [[.int 2, .int 4], [.int 1, .int 3]] 0 0 2
    (by decide) (by decide) (by decide) (by decide)
    (by rw [show pivotVal [[.int 2, .int 4], [.int 1, .int 3]] 0 0 = PyNum.int 2 from by decide]
        norm_num [PyNum.toRat])

/-- Witness for C2 at a tableau with a Fraction pivot entry. -/
theorem pivot_exact_gauss_witness :
    ∃ P, pivot [[.frac 1 2, .int 4], [.int 1, .int 3]] 0 0 = some P ∧ MatWF P ∧
      toQ P = gaussPivot (toQ [[.frac 1 2, .int 4], [.int 1, .int 3]]) 0 0 :=
  pivot_exact_gauss [[.frac 1 2, .int 4], [.int 1, .int 3]] 0 0 2
    (by decide) (by decide) (by decide) (by decide)
    (by rw [show pivotVal [[.frac 1 2, .int 4], [.int 1, .int 3]] 0 0 = PyNum.frac 1 2
          from by decide]
        norm_num [PyNum.toRat])

/-- Witness for C9 at a concrete 2x2 tableau. -/
theorem pivot_preserves_shape_witness :
    ∃ P, pivot [[.int 2, .int 4], [.int 3, .int 5]] 0 0 = some P ∧
      P.length = 2 ∧ ∀ r ∈ P, r.length = 2 :=
  pivot_preserves_shape [[.int 2, .int 4], [.int 3, .int 5]] 0 0 2
    (by decide) (by decide) (by decide) (by decide)
    (by rw [show pivotVal [[.int 2, .int 4], [.int 3, .int 5]] 0 0 = PyNum.int 2 from by decide]
        norm_num [PyNum.toRat])

/-! ## Selection: objective-row minimum and first-index lookup -/

theorem foldl_min_eq_or_mem :
    ∀ (xs : List PyNum) (a : PyNum),
      xs.foldl (fun a b => if PyNum.ltB b a then b else a) a = a ∨
      xs.foldl (fun a b => if PyNum.ltB b a then b else a) a ∈ xs
  | [], a => Or.inl rfl
  | y :: ys, a => by
    simp only [List.foldl_cons]
    rcases foldl_min_eq_or_mem ys (if PyNum.ltB y a then y else a) with h | h
    · rw [h]
      by_cases hy : PyNum.ltB y a = true
      · rw [if_pos hy]; exact Or.inr (by simp)
      · rw [if_neg hy]; exact Or.inl rfl
    · exact Or.inr (by simp [h])

theorem listMinNum_mem {l : List PyNum} (h : l ≠ []) : listMinNum l ∈ l := by
  cases l with
  | nil => exact absurd rfl h
  | cons x xs =>
    rcases foldl_min_eq_or_mem xs x with h2 | h2
    · rw [listMinNum, h2]; simp
    · rw [listMinNum]; exact List.mem_cons_of_mem _ h2

theorem foldl_min_le :
    ∀ (xs : List PyNum) (a : PyNum), (∀ x ∈ xs, x.WF) → a.WF →
      (xs.foldl (fun a b => if PyNum.ltB b a then b else a) a).toRat ≤ a.toRat ∧
      ∀ x ∈ xs, (xs.foldl (fun a b => if PyNum.ltB b a then b else a) a).toRat ≤ x.toRat
  | [], a => by simp
  | y :: ys, a => by
    intro hWF ha
    have hy : y.WF := hWF y (by simp)
    have hstep : (if PyNum.ltB y a then y else a).WF := by
      by_cases h : PyNum.ltB y a = true
      · rw [if_pos h]; exact hy
      · rw [if_neg h]; exact ha
    obtain ⟨ih1, ih2⟩ := foldl_min_le ys (if PyNum.ltB y a then y else a)
      (fun x hx => hWF x (by simp [hx])) hstep
    have hstep_le_a : (if PyNum.ltB y a then y else a).toRat ≤ a.toRat := by
      by_cases h : PyNum.ltB y a = true
      · rw [if_pos h]; exact le_of_lt ((PyNum.ltB_iff hy ha).mp h)
      · rw [if_neg h]
    have hstep_le_y : (if PyNum.ltB y a then y else a).toRat ≤ y.toRat := by
      by_cases h : PyNum.ltB y a = true
      · rw [if_pos h]
      · rw [if_neg h]
        have := (PyNum.ltB_iff hy ha).not.mp (by simp [h])
        linarith [not_lt.mp this]
    simp only [List.foldl_cons]
    refine ⟨le_trans ih1 hstep_le_a, ?_⟩
    intro x hx
    rcases List.mem_cons.mp hx with rfl | hx2
    · exact le_trans ih1 hstep_le_y
    · exact ih2 x hx2

theorem listMinNum_le {l : List PyNum} (hWF : ∀ x ∈ l, x.WF) :
    ∀ x ∈ l, (listMinNum l).toRat ≤ x.toRat := by
  cases l with
  | nil => simp
  | cons y ys =>
    intro x hx
    obtain ⟨h1, h2⟩ := foldl_min_le ys y (fun z hz => hWF z (by simp [hz])) (hWF y (by simp))
    rcases List.mem_cons.mp hx with rfl | hx2
    · exact h1
    · exact h2 x hx2

theorem PyNum.nonneg_iff {x : PyNum} (hx : x.WF) : 0 ≤ x.toPair.1 ↔ 0 ≤ x.toRat := by
  have hx2 : (0 : ℚ) < (x.toPair.2 : ℚ) := by exact_mod_cast hx.pair_pos
  rw [PyNum.toRat_eq_pair, le_div_iff hx2, zero_mul]
  exact ⟨fun h => by exact_mod_cast h, fun h => by exact_mod_cast h⟩

theorem selectStep_optimal_iff (M : List (List PyNum))
    (hobj : objNums M ≠ []) (hWFobj : ∀ x ∈ objNums M, x.WF) :
    selectStep M = .optimal ↔ ∀ x ∈ objNums M, 0 ≤ x.toRat := by
  have hmvWF : (listMinNum (objNums M)).WF := hWFobj _ (listMinNum_mem hobj)
  have hcond : selectStep M = .optimal ↔ 0 ≤ (listMinNum (objNums M)).toPair.1 := by
    by_cases hc : 0 ≤ (listMinNum (objNums M)).toPair.1
    · simp [selectStep, hc]
    · simp only [selectStep, if_neg hc]
      constructor
      · intro h
        split at h <;> simp_all
      · intro h; exact absurd h hc
  rw [hcond, PyNum.nonneg_iff hmvWF]
  constructor
  · intro h x hx
    exact le_trans h (listMinNum_le hWFobj x hx)
  · intro h
    exact h _ (listMinNum_mem hobj)

theorem simplexLoop_optimal (M : List (List PyNum)) (cs : List (ℕ × ℕ))
    (h : selectStep M = .optimal) : simplexLoop cs M = .optimal M := by
  cases cs with
  | nil => simp [simplexLoop, h]
  | cons hd tl =>
    obtain ⟨c, r⟩ := hd
    simp [simplexLoop, h]

theorem simplexLoop_unbounded_step (M : List (List PyNum)) (cs : List (ℕ × ℕ))
    (h : selectStep M = .unbounded) : simplexLoop cs M = .unbounded := by
  cases cs with
  | nil => simp [simplexLoop, h]
  | cons hd tl =>
    obtain ⟨c, r⟩ := hd
    simp [simplexLoop, h]

theorem simplexLoop_suggest_nil (M : List (List PyNum)) (r0 c0 : ℕ)
    (h : selectStep M = .suggest r0 c0) : simplexLoop [] M = .outOfInput M := by
  simp [simplexLoop, h]

theorem simplexLoop_suggest_cons_ok (M M2 : List (List PyNum)) (r0 c0 c r : ℕ)
    (cs : List (ℕ × ℕ)) (h : selectStep M = .suggest r0 c0)
    (hp : pivot M r c = some M2) :
    simplexLoop ((c, r) :: cs) M = simplexLoop cs M2 := by
  simp [simplexLoop, h, hp]

theorem simplexLoop_suggest_cons_err (M : List (List PyNum)) (r0 c0 c r : ℕ)
    (cs : List (ℕ × ℕ)) (h : selectStep M = .suggest r0 c0)
    (hp : pivot M r c = none) :
    simplexLoop ((c, r) :: cs) M = simplexLoop cs M := by
  simp [simplexLoop, h, hp]

theorem simplexLoop_optimal_start (cs : List (ℕ × ℕ)) :
    ∀ {M R : List (List PyNum)}, simplexLoop cs M = .optimal R →
      selectStep R = .optimal := by
  induction cs with
  | nil =>
    intro M R h
    rw [show simplexLoop [] M = match selectStep M with
        | .optimal => LoopResult.optimal M
        | .unbounded => LoopResult.unbounded
        | .suggest _ _ => LoopResult.outOfInput M from rfl] at h
    cases hsel : selectStep M with
    | optimal =>
      rw [hsel] at h
      cases h
      exact hsel
    | unbounded => rw [hsel] at h; cases h
    | suggest a b => rw [hsel] at h; cases h
  | cons hd cs ih =>
    intro M R h
    obtain ⟨c, r⟩ := hd
    rw [show simplexLoop ((c, r) :: cs) M = match selectStep M with
        | .optimal => LoopResult.optimal M
        | .unbounded => LoopResult.unbounded
        | .suggest _ _ =>
          match pivot M r c with
          | some M2 => simplexLoop cs M2
          | none => simplexLoop cs M from rfl] at h
    cases hsel : selectStep M with
    | optimal =>
      rw [hsel] at h
      cases h
      exact hsel
    | unbounded => rw [hsel] at h; cases h
    | suggest a b =>
      rw [hsel] at h
      cases hp : pivot M r c with
      | some M2 => rw [hp] at h; exact ih h
      | none => rw [hp] at h; exact ih h

/-- C3: the iteration returns the tableau unchanged in the `OPTIMAL`
state exactly when every objective-row entry (excluding the right-hand
side) is nonnegative — equivalently, when the minimum of those entries is
nonnegative; otherwise the controller goes on to pivot selection, and no
run that starts from this tableau can return it as optimal. -/
theorem optimal_termination (M : List (List PyNum)) (cs : List (ℕ × ℕ))
    (hobj : objNums M ≠ []) (hWFobj : ∀ x ∈ objNums M, x.WF) :
    simplexLoop cs M = .optimal M ↔ ∀ x ∈ objNums M, 0 ≤ x.toRat := by
  rw [← selectStep_optimal_iff M hobj hWFobj]
  constructor
  · exact fun h => simplexLoop_optimal_start cs h
  · exact fun h => simplexLoop_optimal M cs h

/-- Witness for C3 at the concrete tableau [[1,2],[0,3]] (objective row
[0,3], entry 0 nonnegative): the loop returns it unchanged. -/
theorem optimal_termination_witness :
    simplexLoop [] [[.int 1, .int 2], [.int 0, .int 3]]
      = .optimal [[.int 1, .int 2], [.int 0, .int 3]] :=
  (optimal_termination [[.int 1, .int 2], [.int 0, .int 3]] [] (by decide)
    (by decide)).mpr (by
      intro x hx
      have : x = PyNum.int 0 := by
        simpa [objNums] using hx
      rw [this]
      norm_num [PyNum.toRat])

theorem qEntry_cons_zero (a : ℚ) (t : List ℚ) : qEntry (a :: t) 0 = a := rfl

theorem qEntry_cons_succ (a : ℚ) (t : List ℚ) (j : ℕ) :
    qEntry (a :: t) (j + 1) = qEntry t j := rfl

theorem firstEqIdx_spec (v : PyNum) (hv : v.WF) :
    ∀ (l : List PyNum), (∀ x ∈ l, x.WF) → (∃ x ∈ l, x.toRat = v.toRat) →
      firstEqIdx l v < l.length ∧
      qEntry (l.map PyNum.toRat) (firstEqIdx l v) = v.toRat ∧
      ∀ j < firstEqIdx l v, qEntry (l.map PyNum.toRat) j ≠ v.toRat
  | [] => by
    intro _ hex
    simp at hex
  | x :: xs => by
    intro hWF hex
    have hxWF : x.WF := hWF x (by simp)
    by_cases hx : x.eqB v = true
    · simp only [firstEqIdx, if_pos hx]
      refine ⟨by simp, ?_, by omega⟩
      rw [List.map_cons, qEntry_cons_zero]
      exact (PyNum.eqB_iff hxWF hv).mp hx
    · have hxne : x.toRat ≠ v.toRat := fun hcontra =>
        hx ((PyNum.eqB_iff hxWF hv).mpr hcontra)
      have hex2 : ∃ y ∈ xs, y.toRat = v.toRat := by
        rcases hex with ⟨y, hy, hyv⟩
        rcases List.mem_cons.mp hy with rfl | hy2
        · exact absurd hyv hxne
        · exact ⟨y, hy2, hyv⟩
      obtain ⟨ih1, ih2, ih3⟩ := firstEqIdx_spec v hv xs
        (fun z hz => hWF z (by simp [hz])) hex2
      rw [firstEqIdx, if_neg (by simp [hx])]
      refine ⟨by simp; omega, ?_, ?_⟩
      · rw [List.map_cons, qEntry_cons_succ]
        exact ih2
      · intro j hj
        cases j with
        | zero =>
          rw [List.map_cons, qEntry_cons_zero]
          exact hxne
        | succ j2 =>
          rw [List.map_cons, qEntry_cons_succ]
          exact ih3 j2 (by omega)

/-- C10: when the objective row (excluding the right-hand side) attains
its minimum at more than one column, the controller selects the
lowest-index such column: the selected column carries the minimum value
and every earlier column has a different (hence strictly larger) value. -/
theorem lowest_index_column (M : List (List PyNum))
    (hobj : objNums M ≠ []) (hWFobj : ∀ x ∈ objNums M, x.WF)
    (htie : 1 < ((objNums M).filter
      (fun x => x.eqB (listMinNum (objNums M)))).length) :
    selCol M < (objNums M).length ∧
    qEntry ((objNums M).map PyNum.toRat) (selCol M)
      = (listMinNum (objNums M)).toRat ∧
    ∀ j < selCol M,
      qEntry ((objNums M).map PyNum.toRat) j ≠ (listMinNum (objNums M)).toRat := by
  have hmvWF : (listMinNum (objNums M)).WF := hWFobj _ (listMinNum_mem hobj)
  exact firstEqIdx_spec _ hmvWF _ hWFobj ⟨_, listMinNum_mem hobj, rfl⟩

/-- Witness for C10 at a tableau whose objective row is [-1,-1,0]: the
minimum -1 is attained at columns 0 and 1 and column 0 is selected. -/
theorem lowest_index_column_witness :
    selCol [[.int (-1), .int (-1), .int 0, .int 5]]
        < (objNums [[.int (-1), .int (-1), .int 0, .int 5]]).length ∧
    qEntry ((objNums [[.int (-1), .int (-1), .int 0, .int 5]]).map PyNum.toRat)
        (selCol [[.int (-1), .int (-1), .int 0, .int 5]])
      = (listMinNum (objNums [[.int (-1), .int (-1), .int 0, .int 5]])).toRat ∧
    ∀ j < selCol [[.int (-1), .int (-1), .int 0, .int 5]],
      qEntry ((objNums [[.int (-1), .int (-1), .int 0, .int 5]]).map PyNum.toRat) j
        ≠ (listMinNum (objNums [[.int (-1), .int (-1), .int 0, .int 5]])).toRat :=
  lowest_index_column [[.int (-1), .int (-1), .int 0, .int 5]]
    (by decide) (by decide) (by decide)

/-- C5: a pivot whose entry has value zero raises the division-by-zero
failure (`none`, Python's ZeroDivisionError, raised while evaluating the
list comprehension before anything is assigned, so the tableau is left
unchanged), and the iteration controller catches it: after consuming the
offending user choice, the loop continues from the very same tableau. -/
theorem zero_pivot_invalid (M : List (List PyNum)) (row col r0 c0 : ℕ)
    (cs : List (ℕ × ℕ))
    (hsel : selectStep M = .suggest r0 c0)
    (hz : (pivotVal M row col).isZero = true) :
    pivot M row col = none ∧
    simplexLoop ((col, row) :: cs) M = simplexLoop cs M := by
  have hp : pivot M row col = none := by
    simp [pivot, hz]
  exact ⟨hp, simplexLoop_suggest_cons_err M r0 c0 col row cs hsel hp⟩

/-- Witness for C5: a tableau in the suggestion state where the user
pivots on the zero entry at (0,0); the engine fails and the loop
continues from the unchanged tableau. -/
theorem zero_pivot_invalid_witness :
    pivot [[.int 0, .int 1, .int 2], [.int (-1), .int 0, .int 0]] 0 0 = none ∧
    simplexLoop [((0 : ℕ), (0 : ℕ))]
        [[.int 0, .int 1, .int 2], [.int (-1), .int 0, .int 0]]
      = simplexLoop [] [[.int 0, .int 1, .int 2], [.int (-1), .int 0, .int 0]] :=
  zero_pivot_invalid [[.int 0, .int 1, .int 2], [.int (-1), .int 0, .int 0]]
    0 0 0 0 [] (by decide) (by decide)

/-! ## C4: the unboundedness check the code actually performs -/

/-- C4 counterexample tableau: objective row [-1, 0], single candidate
row [-1, 5].  The selected column 0 has every candidate entry
nonpositive (the program is unbounded by the standard criterion), yet the
controller does not report unbounded: it proceeds to a pivot suggestion,
because its only check is whether the minimum-ratio row has right-hand
side zero. -/
def allNonposColMat : List (List PyNum) := [[.int (-1), .int 5], [.int (-1), .int 0]]

/-- C4 is false of the code: a tableau whose selected candidate column is
all-nonpositive on candidate rows on which the controller nevertheless
reaches the pivot-suggestion state instead of reporting unbounded. -/
theorem unbounded_detection_counterexample :
    (listMinNum (objNums allNonposColMat)).toRat < 0 ∧
    selCol allNonposColMat = 0 ∧
    (∀ r < allNonposColMat.length - 1,
      (entryAt (rowAt allNonposColMat r) 0).toRat ≤ 0) ∧
    selectStep allNonposColMat = .suggest 0 0 := by
  refine ⟨?_, by decide, ?_, by decide⟩
  · rw [show listMinNum (objNums allNonposColMat) = PyNum.int (-1) from by decide]
    norm_num [PyNum.toRat]
  · intro r hr
    have : r = 0 := by
      simp [allNonposColMat] at hr
      omega
    subst this
    rw [show entryAt (rowAt allNonposColMat 0) 0 = PyNum.int (-1) from by decide]
    norm_num [PyNum.toRat]

/-- C4 amended: when the objective minimum is negative, the controller
reports unbounded exactly when the minimum-ratio row's right-hand side
has value zero; all-nonpositive candidate columns play no role in the
check. -/
theorem unbounded_iff_zero_rhs (M : List (List PyNum))
    (hobj : objNums M ≠ []) (hWFobj : ∀ x ∈ objNums M, x.WF)
    (hWF : MatWF M)
    (hneg : (listMinNum (objNums M)).toRat < 0) :
    selectStep M = .unbounded ↔
      (rhsNum M (selRow M (selCol M))).toRat = 0 := by
  have hmvWF : (listMinNum (objNums M)).WF := hWFobj _ (listMinNum_mem hobj)
  have hcond : ¬ 0 ≤ (listMinNum (objNums M)).toPair.1 := by
    rw [PyNum.nonneg_iff hmvWF]
    linarith
  have hrhsWF : (rhsNum M (selRow M (selCol M))).WF := by
    unfold rhsNum
    cases hg : (rowAt M (selRow M (selCol M))).getLast? with
    | none => trivial
    | some x =>
      exact rowAt_WF hWF _ x (List.mem_of_mem_getLast? hg)
  rw [show selectStep M = if (rhsNum M (selRow M (selCol M))).isZero
      then SelectResult.unbounded
      else SelectResult.suggest (selRow M (selCol M)) (selCol M) from by
    simp [selectStep, selCol, if_neg hcond]]
  by_cases hz : (rhsNum M (selRow M (selCol M))).isZero = true
  · simp only [hz, if_true]
    simp [PyNum.isZero_iff hrhsWF] at hz
    simp [hz]
  · have hz2 : (rhsNum M (selRow M (selCol M))).isZero = false := by
      simpa using hz
    simp only [hz2, Bool.false_eq_true, if_false]
    constructor
    · intro h; cases h
    · intro h
      rw [← PyNum.isZero_iff hrhsWF] at h
      rw [h] at hz2
      cases hz2

/-- Witness for the amended C4 at the counterexample tableau: the
minimum-ratio row's right-hand side is 5 and the step is not unbounded. -/
theorem unbounded_iff_zero_rhs_witness :
    selectStep allNonposColMat = .unbounded ↔
      (rhsNum allNonposColMat (selRow allNonposColMat (selCol allNonposColMat))).toRat
        = 0 :=
  unbounded_iff_zero_rhs allNonposColMat (by decide) (by decide) (by decide)
    (by rw [show listMinNum (objNums allNonposColMat) = PyNum.int (-1) from by decide]
        norm_num [PyNum.toRat])

/-! ## The minimum-ratio argmin over the keys Python actually compares -/

/-- Well-formedness of a ratio key: a finite key has a positive
denominator (`none` is `float('inf')`). -/
def KeyWF : Option (ℤ × ℤ) → Prop
  | none => True
  | some q => 0 < q.2

theorem keyLt_irrefl (k : Option (ℤ × ℤ)) : keyLt k k = false := by
  cases k with
  | none => rfl
  | some q => simp [keyLt]

theorem keyLt_trans {x y z : Option (ℤ × ℤ)}
    (hx : KeyWF x) (hy : KeyWF y) (hz : KeyWF z)
    (h1 : keyLt x y = true) (h2 : keyLt y z = true) : keyLt x z = true := by
  cases x with
  | none => simp [keyLt] at h1
  | some a =>
    cases y with
    | none => cases z with
      | none => exact h1
      | some c => simp [keyLt] at h2
    | some b =>
      cases z with
      | none => rfl
      | some c =>
        simp only [keyLt, decide_eq_true_eq] at h1 h2 ⊢
        have hb : (0 : ℤ) < b.2 := hy
        have ha : (0 : ℤ) < a.2 := hx
        have hc : (0 : ℤ) < c.2 := hz
        have t3 : (a.1 * c.2) * b.2 < (c.1 * a.2) * b.2 := by nlinarith
        exact lt_of_mul_lt_mul_right t3 (le_of_lt hb)

theorem keyLt_of_lt_of_not_lt {x y z : Option (ℤ × ℤ)}
    (hx : KeyWF x) (hy : KeyWF y) (hz : KeyWF z)
    (h1 : keyLt x y = true) (h2 : keyLt z y = false) : keyLt x z = true := by
  cases x with
  | none => simp [keyLt] at h1
  | some a =>
    cases y with
    | none =>
      cases z with
      | none => exact h1
      | some c => simp [keyLt] at h2
    | some b =>
      cases z with
      | none => rfl
      | some c =>
        simp only [keyLt, decide_eq_true_eq] at h1 ⊢
        simp only [keyLt, decide_eq_false_iff_not, not_lt] at h2
        have hb : (0 : ℤ) < b.2 := hy
        have ha : (0 : ℤ) < a.2 := hx
        have hc : (0 : ℤ) < c.2 := hz
        have t3 : (a.1 * c.2) * b.2 < (c.1 * a.2) * b.2 := by nlinarith
        exact lt_of_mul_lt_mul_right t3 (le_of_lt hb)

theorem pyMinIdx_succ (keys : ℕ → Option (ℤ × ℤ)) (n : ℕ) :
    pyMinIdx keys (n + 1)
      = if keyLt (keys n) (keys (pyMinIdx keys n)) then n else pyMinIdx keys n := by
  simp [pyMinIdx, List.range_succ]

theorem pyMinIdx_spec (keys : ℕ → Option (ℤ × ℤ)) :
    ∀ n, (∀ r < n, KeyWF (keys r)) →
      (pyMinIdx keys n < n ∨ pyMinIdx keys n = 0) ∧
      (∀ r < n, keyLt (keys r) (keys (pyMinIdx keys n)) = false) ∧
      (∀ r < pyMinIdx keys n, keyLt (keys (pyMinIdx keys n)) (keys r) = true) := by
  intro n
  induction n with
  | zero =>
    intro _
    refine ⟨Or.inr rfl, by omega, ?_⟩
    have : pyMinIdx keys 0 = 0 := rfl
    omega
  | succ n ih =>
    intro hWF
    obtain ⟨ih1, ih2, ih3⟩ := ih (fun r hr => hWF r (by omega))
    have hbWF : KeyWF (keys (pyMinIdx keys n)) := by
      rcases ih1 with h | h
      · exact hWF _ (by omega)
      · rw [h]
        exact hWF 0 (by omega)
    rw [pyMinIdx_succ]
    by_cases hrep : keyLt (keys n) (keys (pyMinIdx keys n)) = true
    · rw [if_pos hrep]
      refine ⟨Or.inl (by omega), ?_, ?_⟩
      · intro r hr
        rcases Nat.lt_succ_iff_lt_or_eq.mp hr with hr2 | rfl
        · cases hlt : keyLt (keys r) (keys n) with
          | false => rfl
          | true =>
            have := keyLt_trans (hWF r (by omega)) (hWF n (by omega)) hbWF hlt hrep
            rw [ih2 r hr2] at this
            cases this
        · exact keyLt_irrefl _
      · intro r hr
        exact keyLt_of_lt_of_not_lt (hWF n (by omega)) hbWF (hWF r (by omega))
          hrep (ih2 r (by omega))
    · rw [if_neg hrep]
      refine ⟨?_, ?_, ih3⟩
      · rcases ih1 with h | h
        · exact Or.inl (by omega)
        · exact Or.inr h
      · intro r hr
        rcases Nat.lt_succ_iff_lt_or_eq.mp hr with hr2 | rfl
        · exact ih2 r hr2
        · simpa using hrep

theorem getLastD_WF {row : List PyNum} (h : ∀ x ∈ row, x.WF) :
    ((row.getLast?).getD (PyNum.int 0)).WF := by
  cases hg : row.getLast? with
  | none => trivial
  | some x => exact h x (List.mem_of_mem_getLast? hg)

theorem PyNum.toPair_fst_ne_zero {x : PyNum} (h : x.isZero = false) :
    x.toPair.1 ≠ 0 := by
  cases x <;> simp_all [PyNum.isZero, PyNum.toPair]

theorem pairDiv_snd_pos (x y : ℤ × ℤ) (h : x.2 * y.1 ≠ 0) :
    0 < (pairDiv x y).2 := by
  simp only [pairDiv]
  split
  · next hlt =>
      show 0 < -(x.2 * y.1)
      linarith
  · next hnlt =>
      show 0 < x.2 * y.1
      exact lt_of_le_of_ne (not_lt.mp hnlt) (Ne.symm h)

theorem floatAssemble_snd_pos (s : ℤ) (m : ℕ) (e : ℤ) :
    0 < (floatAssemble s m e).2 := by
  simp only [floatAssemble]
  split
  · norm_num
  · show (0 : ℤ) < ((2 ^ (-e).toNat : ℕ) : ℤ)
    exact_mod_cast pow_pos (by norm_num : (0 : ℕ) < 2) _

theorem floatPair_snd_pos (a b : ℤ) : 0 < (floatPair a b).2 := by
  unfold floatPair
  split
  · norm_num
  · exact floatAssemble_snd_pos _ _ _

theorem ratioKey_KeyWF (M : List (List PyNum)) (hWF : MatWF M) (col r : ℕ) :
    KeyWF (ratioKey M col r) := by
  by_cases hez : (entryAt (rowAt M r) col).isZero = true
  · simp only [ratioKey, hez, if_true]
    trivial
  · have hez2 : (entryAt (rowAt M r) col).isZero = false := by simpa using hez
    have hbWF := getLastD_WF (rowAt_WF hWF r)
    have heWF : (entryAt (rowAt M r) col).WF := entryAt_WF (rowAt_WF hWF r) col
    have hfst := PyNum.toPair_fst_ne_zero hez2
    cases hB : ((rowAt M r).getLast?).getD (PyNum.int 0) with
    | int bi =>
      cases hE : entryAt (rowAt M r) col with
      | int ei =>
        rw [hE] at hez2
        simp only [ratioKey, hB, hE, hez2, Bool.false_eq_true, if_false]
        exact floatPair_snd_pos bi ei
      | frac ea eb =>
        rw [hB] at hbWF
        rw [hE] at hfst hez2
        simp only [ratioKey, hB, hE, hez2, Bool.false_eq_true, if_false]
        exact pairDiv_snd_pos _ _ (mul_ne_zero (ne_of_gt hbWF.pair_pos) hfst)
    | frac ba bb =>
      cases hE : entryAt (rowAt M r) col with
      | int ei =>
        rw [hB] at hbWF
        rw [hE] at hfst hez2
        simp only [ratioKey, hB, hE, hez2, Bool.false_eq_true, if_false]
        exact pairDiv_snd_pos _ _ (mul_ne_zero (ne_of_gt hbWF.pair_pos) hfst)
      | frac ea eb =>
        rw [hB] at hbWF
        rw [hE] at hfst hez2
        simp only [ratioKey, hB, hE, hez2, Bool.false_eq_true, if_false]
        exact pairDiv_snd_pos _ _ (mul_ne_zero (ne_of_gt hbWF.pair_pos) hfst)

/-- C6 amended: given a negative objective minimum, the suggested pivot
row is the argmin, with ties broken by first occurrence in row order, of
the ratio keys the code actually compares: `float('inf')` for a zero
column entry, the exact quotient rounded to the nearest IEEE-754 double
when both the right-hand side and the column entry are ints (Python's
`/` on two ints is float division), and the exact rational quotient
otherwise.  The selected row's key is minimal among candidate rows, and
every earlier row has a strictly greater key. -/
theorem ratio_argmin_keys (M : List (List PyNum)) (hWF : MatWF M)
    (hm : 0 < M.length - 1)
    (hneg : (listMinNum (objNums M)).toRat < 0) :
    selRow M (selCol M) < M.length - 1 ∧
    (∀ r < M.length - 1,
      keyLt (ratioKey M (selCol M) r)
        (ratioKey M (selCol M) (selRow M (selCol M))) = false) ∧
    ∀ r < selRow M (selCol M),
      keyLt (ratioKey M (selCol M) (selRow M (selCol M)))
        (ratioKey M (selCol M) r) = true := by
  obtain ⟨h1, h2, h3⟩ := pyMinIdx_spec (ratioKey M (selCol M)) (M.length - 1)
    (fun r _ => ratioKey_KeyWF M hWF (selCol M) r)
  refine ⟨?_, h2, h3⟩
  rcases h1 with h | h
  · exact h
  · rw [selRow, h]
    omega

/-- The exact ratio exactly as claim C6 words it (spec side):
`tableau[r][-1] / tableau[r][col]` as an exact rational. -/
def claimRatio (M : List (List PyNum)) (col r : ℕ) : ℚ :=
  (rhsNum M r).toRat / (entryAt (rowAt M r) col).toRat

/-- C6 counterexample tableau: candidate row 0 has right-hand side
`Fraction(1,3)` and column entry 1 (exact key 1/3); candidate row 1 has
right-hand side 1 and column entry 3, so Python computes its key with
float division, and float(1/3) is strictly below 1/3. -/
def floatTieMat : List (List PyNum) :=
  [[.int 1, .frac 1 3], [.int 3, .int 1], [.int (-1), .int 0]]

/-- C6 is false of the code as stated: both candidate rows of
`floatTieMat` have the same exact ratio 1/3 (both column entries
nonzero), so the claimed argmin with first-occurrence tie-break is row 0,
yet the controller suggests row 1, because row 1's key is the rounded
double float(1/3) < Fraction(1,3). -/
theorem ratio_argmin_counterexample :
    claimRatio floatTieMat 0 0 = claimRatio floatTieMat 0 1 ∧
    (entryAt (rowAt floatTieMat 0) 0).toRat ≠ 0 ∧
    (entryAt (rowAt floatTieMat 1) 0).toRat ≠ 0 ∧
    selectStep floatTieMat = .suggest 1 0 ∧ (1 : ℕ) ≠ 0 := by
  refine ⟨?_, ?_, ?_, by decide, by decide⟩
  · simp only [claimRatio]
    rw [show rhsNum floatTieMat 0 = PyNum.frac 1 3 from by decide,
      show entryAt (rowAt floatTieMat 0) 0 = PyNum.int 1 from by decide,
      show rhsNum floatTieMat 1 = PyNum.int 1 from by decide,
      show entryAt (rowAt floatTieMat 1) 0 = PyNum.int 3 from by decide]
    norm_num [PyNum.toRat]
  · rw [show entryAt (rowAt floatTieMat 0) 0 = PyNum.int 1 from by decide]
    norm_num [PyNum.toRat]
  · rw [show entryAt (rowAt floatTieMat 1) 0 = PyNum.int 3 from by decide]
    norm_num [PyNum.toRat]

/-- Witness for the amended C6 at the same tableau. -/
theorem ratio_argmin_keys_witness :
    selRow floatTieMat (selCol floatTieMat) < floatTieMat.length - 1 ∧
    (∀ r < floatTieMat.length - 1,
      keyLt (ratioKey floatTieMat (selCol floatTieMat) r)
        (ratioKey floatTieMat (selCol floatTieMat)
          (selRow floatTieMat (selCol floatTieMat))) = false) ∧
    ∀ r < selRow floatTieMat (selCol floatTieMat),
      keyLt (ratioKey floatTieMat (selCol floatTieMat)
          (selRow floatTieMat (selCol floatTieMat)))
        (ratioKey floatTieMat (selCol floatTieMat) r) = true :=
  ratio_argmin_keys floatTieMat (by decide) (by decide)
    (by rw [show listMinNum (objNums floatTieMat) = PyNum.int (-1) from by decide]
        norm_num [PyNum.toRat])

/-! ## C8: linear-program semantics and a cycling unbounded instance -/

/-- Value of one tableau row's linear form: every entry except the last
is a coefficient of the corresponding variable. -/
def rowForm (rowq : List ℚ) (x : ℕ → ℚ) : ℚ :=
  ((List.range (rowq.length - 1)).map (fun j => qEntry rowq j * x j)).sum

/-- Feasible point of the equational tableau: nonnegative variables
satisfying every constraint row (all rows except the objective row),
whose right-hand side is the row's last entry. -/
def feasiblePoint (Mq : List (List ℚ)) (x : ℕ → ℚ) : Prop :=
  (∀ j, 0 ≤ x j) ∧
  ∀ r < Mq.length - 1,
    rowForm (qRow Mq r) x = qEntry (qRow Mq r) ((qRow Mq r).length - 1)

/-- Objective value encoded by the tableau: the objective (last) row
stores the negated objective coefficients, which is why the controller
pivots on the most negative entry to maximize. -/
def objValue (Mq : List (List ℚ)) (x : ℕ → ℚ) : ℚ :=
  - rowForm (qRow Mq (Mq.length - 1)) x

/-- The linear program of the tableau has an unbounded objective:
feasible points of arbitrarily large objective value exist. -/
def unboundedLP (Mq : List (List ℚ)) : Prop :=
  ∀ B : ℚ, ∃ x, feasiblePoint Mq x ∧ B < objValue Mq x

/-- Maximize x0 subject to x0 - x1 + s = 1 (vars ≥ 0): unbounded. -/
def cycleT0 : List (List PyNum) :=
  [[.int 1, .int (-1), .int 1, .int 1], [.int (-1), .int 0, .int 0, .int 0]]

/-- The tableau after accepting the suggestion (row 0, col 0). -/
def cycleT1 : List (List PyNum) :=
  [[.int 1, .int (-1), .int 1, .int 1], [.int 0, .int (-1), .int 1, .int 1]]

/-- The tableau after then accepting the suggestion (row 0, col 1). -/
def cycleT2 : List (List PyNum) :=
  [[.int (-1), .int 1, .int (-1), .int (-1)], [.int (-1), .int 0, .int 0, .int 0]]

/-- The stream of user-typed (col, row) pairs that accepts every one of
the controller's own suggestions along the cycle. -/
def altChoices : ℕ → Bool → List (ℕ × ℕ)
  | 0, _ => []
  | k + 1, b => (if b then ((0 : ℕ), (0 : ℕ)) else (1, 0)) :: altChoices k (!b)

/-- Prefixes of the suggestion-accepting interaction for `cycleT0`. -/
def altStream (k : ℕ) : List (ℕ × ℕ) := altChoices k true

/-- The interactive run never terminates: every finite prefix of the
choice stream is exhausted with the loop still asking for a pivot. -/
def runsOutForever (M : List (List PyNum)) (cs : ℕ → List (ℕ × ℕ)) : Prop :=
  ∀ k, ∃ R, simplexLoop (cs k) M = LoopResult.outOfInput R

theorem cycle_outOfInput : ∀ k,
    (∃ R, simplexLoop (altChoices k false) cycleT1 = .outOfInput R) ∧
    (∃ R, simplexLoop (altChoices k true) cycleT2 = .outOfInput R) := by
  intro k
  induction k with
  | zero =>
    exact ⟨⟨cycleT1, simplexLoop_suggest_nil _ 0 1 (by decide)⟩,
      ⟨cycleT2, simplexLoop_suggest_nil _ 0 0 (by decide)⟩⟩
  | succ k ih =>
    constructor
    · rw [show altChoices (k + 1) false = (1, 0) :: altChoices k true from rfl,
        simplexLoop_suggest_cons_ok cycleT1 cycleT2 0 1 1 0 _ (by decide) (by decide)]
      exact ih.2
    · rw [show altChoices (k + 1) true = (0, 0) :: altChoices k false from rfl,
        simplexLoop_suggest_cons_ok cycleT2 cycleT1 0 0 0 0 _ (by decide) (by decide)]
      exact ih.1

theorem cycle_runsOut : runsOutForever cycleT0 altStream := by
  intro k
  cases k with
  | zero => exact ⟨cycleT0, simplexLoop_suggest_nil _ 0 0 (by decide)⟩
  | succ k =>
    rw [show altStream (k + 1) = (0, 0) :: altChoices k false from rfl,
      simplexLoop_suggest_cons_ok cycleT0 cycleT1 0 0 0 0 _ (by decide) (by decide)]
    exact (cycle_outOfInput k).1

theorem toQ_cycleT0 : toQ cycleT0 = [[(1 : ℚ), -1, 1, 1], [-1, 0, 0, 0]] := by
  decide

theorem unbounded_cycleT0 : unboundedLP (toQ cycleT0) := by
  intro B
  refine ⟨fun j => if j = 0 then max B 0 + 1 else if j = 1 then max B 0 else 0, ⟨?_, ?_⟩, ?_⟩
  · intro j
    by_cases h0 : j = 0
    · simp only [h0, if_true]
      linarith [le_max_right B 0]
    · by_cases h1 : j = 1
      · simp only [h0, h1, if_false, if_true]
        exact le_max_right B 0
      · simp [h0, h1]
  · intro r hr
    rw [toQ_cycleT0] at hr ⊢
    have hr0 : r = 0 := by
      simp only [List.length_cons, List.length_nil] at hr
      omega
    subst hr0
    rw [show qRow [[(1 : ℚ), -1, 1, 1], [-1, 0, 0, 0]] 0 = [(1 : ℚ), -1, 1, 1] from rfl]
    rw [rowForm, show [(1 : ℚ), -1, 1, 1].length - 1 = 3 from rfl,
      show List.range 3 = [0, 1, 2] from rfl]
    simp only [List.map_cons, List.map_nil, List.sum_cons, List.sum_nil]
    rw [show qEntry [(1 : ℚ), -1, 1, 1] 0 = 1 from rfl,
      show qEntry [(1 : ℚ), -1, 1, 1] 1 = -1 from rfl,
      show qEntry [(1 : ℚ), -1, 1, 1] 2 = 1 from rfl,
      show qEntry [(1 : ℚ), -1, 1, 1] 3 = 1 from rfl]
    norm_num
  · rw [objValue, toQ_cycleT0]
    rw [show ([[(1 : ℚ), -1, 1, 1], [-1, 0, 0, 0]] : List (List ℚ)).length - 1 = 1 from rfl]
    rw [show qRow [[(1 : ℚ), -1, 1, 1], [-1, 0, 0, 0]] 1 = [(-1 : ℚ), 0, 0, 0] from rfl]
    rw [rowForm, show [(-1 : ℚ), 0, 0, 0].length - 1 = 3 from rfl,
      show List.range 3 = [0, 1, 2] from rfl]
    simp only [List.map_cons, List.map_nil, List.sum_cons, List.sum_nil]
    rw [show qEntry [(-1 : ℚ), 0, 0, 0] 0 = -1 from rfl,
      show qEntry [(-1 : ℚ), 0, 0, 0] 1 = 0 from rfl,
      show qEntry [(-1 : ℚ), 0, 0, 0] 2 = 0 from rfl]
    norm_num
    linarith [le_max_left B 0]

/-- C8 is false of the code as stated: the linear program of `cycleT0`
(maximize x0 subject to x0 - x1 + s = 1, variables nonnegative) has an
unbounded objective, yet the iteration does not terminate by reaching
the UNBOUNDED state: accepting the controller's own pivot suggestions at
every prompt, every finite prefix of the interaction ends with the loop
still asking for another pivot (the tableaus cycle), and in particular
no prefix ever reports unbounded. -/
theorem unbounded_nontermination_counterexample :
    unboundedLP (toQ cycleT0) ∧ runsOutForever cycleT0 altStream :=
  ⟨unbounded_cycleT0, cycle_runsOut⟩

/-- C8 amended: what does terminate deterministically is the UNBOUNDED
report itself — whenever the selection pass finds a negative objective
minimum with a zero right-hand side in the minimum-ratio row, the loop
halts in the UNBOUNDED state for every stream of user pivot choices,
without attempting any pivot; an unbounded linear program, however, is
not guaranteed to ever reach that state (see the counterexample). -/
theorem unbounded_state_deterministic (M : List (List PyNum))
    (cs : List (ℕ × ℕ)) (h : selectStep M = .unbounded) :
    simplexLoop cs M = .unbounded :=
  simplexLoop_unbounded_step M cs h

/-- Witness for the amended C8: a tableau whose ratio-test row has zero
right-hand side halts as UNBOUNDED with no pivot choices consumed. -/
theorem unbounded_state_deterministic_witness :
    simplexLoop [((5 : ℕ), (7 : ℕ))] [[.int 1, .int 0], [.int (-1), .int 0]]
      = .unbounded :=
  unbounded_state_deterministic [[.int 1, .int 0], [.int (-1), .int 0]]
    [(5, 7)] (by decide)

/-! ## C7: the solution report of the main routine -/

theorem entryAt_cons_zero (x : PyNum) (xs : List PyNum) : entryAt (x :: xs) 0 = x := rfl

theorem entryAt_cons_succ (x : PyNum) (xs : List PyNum) (j : ℕ) :
    entryAt (x :: xs) (j + 1) = entryAt xs j := rfl

theorem firstOneIdx_none_spec :
    ∀ (l : List PyNum), firstOneIdx l = none → ∀ x ∈ l, x.eqB (.int 1) = false
  | [], _, x, hx => absurd hx (List.not_mem_nil x)
  | x :: xs, h, y, hy => by
    by_cases hx : x.eqB (.int 1) = true
    · rw [firstOneIdx, if_pos hx] at h
      cases h
    · rw [firstOneIdx, if_neg hx] at h
      rcases List.mem_cons.mp hy with rfl | hy2
      · simpa using hx
      · cases hfx : firstOneIdx xs with
        | none => exact firstOneIdx_none_spec xs hfx y hy2
        | some k => rw [hfx] at h; cases h

theorem firstOneIdx_some_spec :
    ∀ (l : List PyNum) (k : ℕ), firstOneIdx l = some k →
      k < l.length ∧ (entryAt l k).eqB (.int 1) = true ∧
      ∀ j < k, (entryAt l j).eqB (.int 1) = false
  | [], k, h => by simp [firstOneIdx] at h
  | x :: xs, k, h => by
    by_cases hx : x.eqB (.int 1) = true
    · rw [firstOneIdx, if_pos hx] at h
      cases h
      exact ⟨by simp, by rwa [entryAt_cons_zero], by omega⟩
    · rw [firstOneIdx, if_neg hx] at h
      cases hfx : firstOneIdx xs with
      | none => rw [hfx] at h; cases h
      | some k2 =>
        rw [hfx] at h
        have hk : k2 + 1 = k := by simpa using h
        subst hk
        obtain ⟨ih1, ih2, ih3⟩ := firstOneIdx_some_spec xs k2 hfx
        refine ⟨by simp; omega, by rwa [entryAt_cons_succ], ?_⟩
        intro j hj
        cases j with
        | zero => rw [entryAt_cons_zero]; simpa using hx
        | succ j2 => rw [entryAt_cons_succ]; exact ih3 j2 (by omega)

theorem entryAt_map_entry (R : List (List PyNum)) (i r : ℕ) (hr : r < R.length) :
    entryAt (R.map (fun row => entryAt row i)) r = entryAt (rowAt R r) i := by
  rw [rowAt_eq_getElem hr]
  simp [entryAt, List.get?_eq_getElem?, List.getElem?_map, List.getElem?_eq_getElem hr]

/-- Column `i` of the exact tableau is a unit column: some row holds
exactly the value 1 there and every other row holds exactly 0. -/
def unitColumn (Mq : List (List ℚ)) (i : ℕ) : Prop :=
  ∃ r < Mq.length, qEntry (qRow Mq r) i = 1 ∧
    ∀ s < Mq.length, s ≠ r → qEntry (qRow Mq s) i = 0

/-- C7 counterexample tableau: column 0 is [1, 1] — not a unit column. -/
def doubleOneMat : List (List PyNum) := [[.int 1, .int 2], [.int 1, .int 3]]

/-- C7 is false of the code as stated: in `doubleOneMat`, column 0 is
not a unit column, so the claim demands x0 = 0, yet the program prints
the right-hand side 2 of the first row whose entry equals 1. -/
theorem solution_extraction_counterexample :
    ¬ unitColumn (toQ doubleOneMat) 0 ∧
    (solutionValue doubleOneMat 0).toRat = 2 ∧ (2 : ℚ) ≠ 0 := by
  refine ⟨?_, ?_, by norm_num⟩
  · rintro ⟨r, hr, h1, h2⟩
    rw [show (toQ doubleOneMat).length = 2 from rfl] at hr h2
    interval_cases r
    · have := h2 1 (by omega) (by omega)
      rw [show qEntry (qRow (toQ doubleOneMat) 1) 0 = 1 from by decide] at this
      norm_num at this
    · have := h2 0 (by omega) (by omega)
      rw [show qEntry (qRow (toQ doubleOneMat) 0) 0 = 1 from by decide] at this
      norm_num at this
  · rw [show solutionValue doubleOneMat 0 = PyNum.int 2 from by decide]
    norm_num [PyNum.toRat]

/-- C7 amended: the reported value of variable `x i` is the right-hand
side of the first row whose column-`i` entry equals 1, whether or not
column `i` is a unit column, and it is 0 exactly when no entry of the
column equals 1.  When the column is a unit column, the row holding its
1 is that first row, so the claim's positive half holds. -/
theorem solution_value_first_one (R : List (List PyNum)) (i : ℕ)
    (hWF : MatWF R) :
    ((∀ r < R.length, (entryAt (rowAt R r) i).toRat ≠ 1) →
        (solutionValue R i).toRat = 0) ∧
    ∀ r < R.length, (entryAt (rowAt R r) i).toRat = 1 →
      (∀ s < r, (entryAt (rowAt R s) i).toRat ≠ 1) →
      solutionValue R i = rhsNum R r := by
  have hcol : ∀ r, r < R.length →
      ((entryAt (rowAt R r) i).eqB (.int 1) = true ↔
        (entryAt (rowAt R r) i).toRat = 1) := by
    intro r hr
    rw [PyNum.eqB_iff (entryAt_WF (rowAt_WF hWF r) i) (by exact trivial)]
    norm_num [PyNum.toRat]
  have hlen : (R.map (fun row => entryAt row i)).length = R.length := by simp
  constructor
  · intro hnone
    cases hf : firstOneIdx (R.map (fun row => entryAt row i)) with
    | none =>
      rw [solutionValue, hf]
      norm_num [PyNum.toRat]
    | some k =>
      obtain ⟨hk1, hk2, _⟩ := firstOneIdx_some_spec _ _ hf
      rw [hlen] at hk1
      rw [entryAt_map_entry R i k hk1] at hk2
      exact absurd ((hcol k hk1).mp hk2) (hnone k hk1)
  · intro r hr hone hfirst
    cases hf : firstOneIdx (R.map (fun row => entryAt row i)) with
    | none =>
      have hmem : entryAt (R.map (fun row => entryAt row i)) r
          ∈ R.map (fun row => entryAt row i) := by
        rw [entryAt_eq_getElem (by rwa [hlen])]
        exact List.getElem_mem _
      have := firstOneIdx_none_spec _ hf _ hmem
      rw [entryAt_map_entry R i r hr] at this
      rw [(hcol r hr).mpr hone] at this
      cases this
    | some k =>
      obtain ⟨hk1, hk2, hk3⟩ := firstOneIdx_some_spec _ _ hf
      rw [hlen] at hk1
      rw [entryAt_map_entry R i k hk1] at hk2
      have hkval : (entryAt (rowAt R k) i).toRat = 1 := (hcol k hk1).mp hk2
      have hkr : k = r := by
        rcases lt_trichotomy k r with h | h | h
        · exact absurd hkval (hfirst k h)
        · exact h
        · have := hk3 r h
          rw [entryAt_map_entry R i r hr] at this
          rw [(hcol r hr).mpr hone] at this
          cases this
      subst hkr
      rw [solutionValue, hf]

/-- Witness for the amended C7 at a unit-column tableau: column 0 is
[0, 1], so x0 is reported as the right-hand side of row 1. -/
theorem solution_value_first_one_witness :
    solutionValue [[.int 0, .int 5], [.int 1, .int 7]] 0
      = rhsNum [[.int 0, .int 5], [.int 1, .int 7]] 1 :=
  (solution_value_first_one [[.int 0, .int 5], [.int 1, .int 7]] 0 (by decide)).2
    1 (by decide)
    (by rw [show entryAt (rowAt [[.int 0, .int 5], [.int 1, .int 7]] 1) 0
          = PyNum.int 1 from by decide]
        norm_num [PyNum.toRat])
    (by intro s hs
        have hs0 : s = 0 := by omega
        subst hs0
        rw [show entryAt (rowAt [[.int 0, .int 5], [.int 1, .int 7]] 0) 0
          = PyNum.int 0 from by decide]
        norm_num [PyNum.toRat])
